import Mathlib

/-!
# NumberMapper (fbpcf/mpc_std_lib/walr_multiplication/util/NumberMapper.h)

A shallow embedding of the class template `NumberMapper<FixedPointType>`.

Modelling conventions.
* The template parameter is one of the four fixed-width unsigned types; values
  of a W-bit unsigned type are natural numbers below `2 ^ W`, and every
  conversion into such a type is an explicit reduction modulo `2 ^ W`.
* The conversion methods are embedded twice. In `NumberMapper` the `double`
  values are exact rationals: rounding of `*`, `/` and of the
  integer-to-double conversions is left out, which is the reading of the
  properties that take arithmetic on reals as exact. In `NumberMapper.Binary64`
  every conversion to `double`, product and quotient is rounded to IEEE
  binary64 (round to nearest, ties to even) and a `double` may be an infinity
  or a NaN; the sign of a zero is not represented.
* A conversion from `double` to `intmax_t` has a result only when the
  truncated value fits in 64 signed bits; in the exact embedding a division
  has a result only when the divisor is not zero. Both return `Option`.
* `int` is 32 bits wide and `uintmax_t`/`intmax_t` are 64 bits wide.
* Arguments are values of their parameter types: a `FixedPointType` argument
  is below `2 ^ W` and a `uint64_t` argument is below `2 ^ 64`.
-/

namespace fbpcf.mpc_std_lib.walr.util

/-- The unsigned integer types the class template is instantiated with. -/
inductive FixedPointType where
  | uint8_t
  | uint16_t
  | uint32_t
  | uint64_t
  deriving DecidableEq, Repr

namespace FixedPointType

/-- Storage width in bits. -/
def bits : FixedPointType → Nat
  | uint8_t => 8
  | uint16_t => 16
  | uint32_t => 32
  | uint64_t => 64

/-- The value of `std::numeric_limits<FixedPointType>::max()`. -/
def max (T : FixedPointType) : Nat := 2 ^ T.bits - 1

/-- Width of `SignedFixedPointType`, the outcome of the `std::conditional_t`
chain: `int8_t`, `int16_t`, `int32_t`, `int64_t`, with `int64_t` as the
fallback. -/
def signedBits (T : FixedPointType) : Nat :=
  if T = uint8_t then 8
  else if T = uint16_t then 16
  else if T = uint32_t then 32
  else if T = uint64_t then 64
  else 64

/-- Width of the type in which `max() + 1` is evaluated: operands narrower
than `int` are promoted to (32-bit) `int`; `unsigned int` and wider unsigned
operands keep their own type. -/
def promotedBits (T : FixedPointType) : Nat :=
  if T.bits < 32 then 32 else T.bits

/-- Whether the type in which `max() + 1` is evaluated is signed. -/
def promotedSigned (T : FixedPointType) : Bool := decide (T.bits < 32)

end FixedPointType

open FixedPointType

/-- Width of `uintmax_t` and `intmax_t`. -/
def intmaxBits : Nat := 64

/-- Conversion of an integer to an unsigned type of `w` bits. -/
def toUnsigned (w : Nat) (i : Int) : Nat := (i % (2 : Int) ^ w).toNat

/-- Conversion of a natural number to a signed type of `w` bits: the value
congruent to it modulo `2 ^ w` in `[-2^(w-1), 2^(w-1))`. -/
def toSigned (w : Nat) (v : Nat) : Int :=
  if v % 2 ^ w < 2 ^ (w - 1) then ((v % 2 ^ w : Nat) : Int)
  else ((v % 2 ^ w : Nat) : Int) - (2 : Int) ^ w

/-- Truncation toward zero of a rational number. -/
def truncate (q : ℚ) : Int := if 0 ≤ q then ⌊q⌋ else ⌈q⌉

/-- The conversion `static_cast<intmax_t>(product)`: the truncated value when
it is representable in `intmax_t`, no result otherwise. -/
def castToIntmax (product : ℚ) : Option Int :=
  if -(2 : Int) ^ (intmaxBits - 1) ≤ truncate product ∧
      truncate product < (2 : Int) ^ (intmaxBits - 1) then
    some (truncate product)
  else none

/-- A value of the type `double` (IEEE binary64): a finite value, an infinity
with its sign, or a NaN. The sign of a zero is not represented. -/
inductive Double where
  | finite (value : ℚ)
  | infinity (negative : Bool)
  | nan
  deriving DecidableEq

/-- Rounding of a rational number to the nearest integer, a tie going to the
even neighbour. -/
def roundHalfEven (x : ℚ) : Int :=
  if x - (⌊x⌋ : ℚ) < 1 / 2 then ⌊x⌋
  else if 1 / 2 < x - (⌊x⌋ : ℚ) then ⌊x⌋ + 1
  else if ⌊x⌋ % 2 = 0 then ⌊x⌋
  else ⌊x⌋ + 1

/-- Exponent of the spacing of binary64 values around `q`: 52 below the
exponent of the binade of `q`, and at least -1074 (the subnormal spacing). -/
def ulpExponent (q : ℚ) : Int := Max.max (Int.log 2 |q| - 52) (-1074)

namespace Double

/-- Rounding of a real number to binary64, round to nearest with ties to
even: the nearest multiple of the spacing around `q`, or an infinity when that
multiple is `2 ^ 1024` in magnitude. -/
def round (q : ℚ) : Double :=
  if |(roundHalfEven (q / (2 : ℚ) ^ ulpExponent q) : ℚ) * (2 : ℚ) ^ ulpExponent q| <
      (2 : ℚ) ^ (1024 : Nat) then
    finite ((roundHalfEven (q / (2 : ℚ) ^ ulpExponent q) : ℚ) * (2 : ℚ) ^ ulpExponent q)
  else infinity (decide (q < 0))

/-- Conversion of an unsigned integer to `double`. -/
def ofUInt (n : Nat) : Double := round (n : ℚ)

/-- Conversion of a signed integer to `double`. -/
def ofInt (z : Int) : Double := round (z : ℚ)

/-- The product of two `double` values. -/
def mul : Double → Double → Double
  | finite a, finite b => round (a * b)
  | finite a, infinity s => if a = 0 then nan else infinity (xor (decide (a < 0)) s)
  | infinity s, finite b => if b = 0 then nan else infinity (xor s (decide (b < 0)))
  | infinity s, infinity t => infinity (xor s t)
  | nan, _ => nan
  | _, nan => nan

/-- The quotient of two `double` values; a zero divisor is the positive
zero. -/
def div : Double → Double → Double
  | finite a, finite b =>
    if b = 0 then (if a = 0 then nan else infinity (decide (a < 0)))
    else round (a / b)
  | finite _, infinity _ => finite 0
  | infinity s, finite b => infinity (xor s (decide (b < 0)))
  | infinity _, infinity _ => nan
  | nan, _ => nan
  | _, nan => nan

/-- The function `std::abs` on `double`. -/
def abs : Double → Double
  | finite a => finite |a|
  | infinity _ => infinity false
  | nan => nan

/-- The comparison `a > b` on `double`, false when an operand is a NaN. -/
def gt : Double → Double → Bool
  | finite a, finite b => decide (b < a)
  | finite _, infinity s => s
  | infinity s, finite _ => !s
  | infinity s, infinity t => !s && t
  | nan, _ => false
  | _, nan => false

/-- The conversion `static_cast<intmax_t>` of a `double`: defined only for a
finite value whose truncation is representable in `intmax_t`. -/
def castToIntmax : Double → Option Int
  | finite q =>
    if -(2 : Int) ^ (intmaxBits - 1) ≤ truncate q ∧ truncate q < (2 : Int) ^ (intmaxBits - 1) then
      some (truncate q)
    else none
  | _ => none

end Double

/-- The algorithm `std::transform(first, last, d_first, op)`: the elements of
the source range are passed to `op` in order and each result is stored
through the output iterator, which advances over the destination; the
function returns the destination after the stores. A store past the end of
the destination has no result, and neither has a call of `op` without one. -/
def transform {α β : Type} (op : α → Option β) : List α → List β → Option (List β)
  | [], dst => some dst
  | a :: rest, dst =>
    match op a with
    | none => none
    | some b =>
      match dst with
      | [] => none
      | _ :: dstTail =>
        match transform op rest dstTail with
        | none => none
        | some stored => some (b :: stored)

/-- Error raised by the constructor and by `setDivisor`. -/
inductive Error where
  | invalid_argument (what : String)
  deriving DecidableEq, Repr

/-- Text of the `std::invalid_argument` thrown on a divisor that is too
large. -/
def divisorTooLarge : String :=
  "The divisor's value should not exceed the max value a FixedPointType can represent."

/-- An instance of `NumberMapper<T>`: its only data member is `divisor_`. -/
structure NumberMapper (T : FixedPointType) where
  divisor_ : Nat
  deriving DecidableEq, Repr

namespace NumberMapper

variable {T : FixedPointType}

/-- The constructor `NumberMapper(uint64_t divisor)`. -/
def create (T : FixedPointType) (divisor : Nat) : Except Error (NumberMapper T) :=
  if divisor > T.max then .error (.invalid_argument divisorTooLarge)
  else .ok ⟨divisor⟩

/-- Storage width of the mapper, fixed by the template argument. -/
def width (_m : NumberMapper T) : Nat := T.bits

/-- The constant `groupSizeInt`: `max() + 1` evaluated in the promoted type of
`max()`, then converted to `uintmax_t`. -/
def groupSizeInt (T : FixedPointType) : Nat :=
  if T.promotedSigned then
    toUnsigned intmaxBits (((T.max + 1 : Nat) : Int))
  else
    toUnsigned intmaxBits ((((T.max + 1) % 2 ^ T.promotedBits : Nat) : Int))

/-- The constant `groupSizeDouble`. -/
def groupSizeDouble (T : FixedPointType) : ℚ := (groupSizeInt T : ℚ)

/-- The method `mapToFixedPointType(double)` together with the diagnostic:
the first component tells whether the `XLOG_EVERY_MS(WARN, 500)` statement is
reached, the second is the returned value. -/
def mapToFixedPointTypeLogged (m : NumberMapper T) (input : ℚ) : Bool × Option Nat :=
  let product := input * (m.divisor_ : ℚ)
  let warned := decide (|product| > groupSizeDouble T)
  (warned, (castToIntmax product).map fun i => toUnsigned intmaxBits i % 2 ^ T.bits)

/-- The method `mapToFixedPointType(double)`. -/
def mapToFixedPointType (m : NumberMapper T) (input : ℚ) : Option Nat :=
  (mapToFixedPointTypeLogged m input).2

/-- The method `mapToUnsignedDouble(FixedPointType)`. -/
def mapToUnsignedDouble (m : NumberMapper T) (input : Nat) : Option ℚ :=
  if m.divisor_ = 0 then none
  else some ((input : ℚ) / (m.divisor_ : ℚ))

/-- The method `mapToSignedDouble(FixedPointType)`. -/
def mapToSignedDouble (m : NumberMapper T) (input : Nat) : Option ℚ :=
  if m.divisor_ = 0 then none
  else some ((toSigned T.signedBits input : ℚ) / (m.divisor_ : ℚ))

/-- The method `mapToFixedPointType(const std::vector<double>&)`: `rst` is
created with `input.size()` value-initialised elements and filled by
`std::transform`. -/
def mapToFixedPointTypeVector (m : NumberMapper T) (input : List ℚ) : Option (List Nat) :=
  let rst : List Nat := List.replicate input.length 0
  transform (fun a => mapToFixedPointType m a) input rst

/-- The method `mapToUnsignedDouble(const std::vector<FixedPointType>&)`. -/
def mapToUnsignedDoubleVector (m : NumberMapper T) (input : List Nat) : Option (List ℚ) :=
  let rst : List ℚ := List.replicate input.length 0
  transform (fun a => mapToUnsignedDouble m a) input rst

/-- The method `mapToSignedDouble(const std::vector<FixedPointType>&)`. -/
def mapToSignedDoubleVector (m : NumberMapper T) (input : List Nat) : Option (List ℚ) :=
  let rst : List ℚ := List.replicate input.length 0
  transform (fun a => mapToSignedDouble m a) input rst

/-- The method `getDivisor`. -/
def getDivisor (m : NumberMapper T) : Nat := m.divisor_

/-- The method `setDivisor(uint64_t)`: the outcome of the call and the state
of the object after it. -/
def setDivisor (m : NumberMapper T) (divisor : Nat) : Except Error Unit × NumberMapper T :=
  if divisor > T.max then (.error (.invalid_argument divisorTooLarge), m)
  else (.ok (), { m with divisor_ := divisor })

namespace Binary64

/-- The constant `groupSizeDouble` as a `double`: `double(groupSizeInt)`. -/
def groupSizeDouble (T : FixedPointType) : Double := Double.ofUInt (groupSizeInt T)

/-- The method `mapToFixedPointType(double)` in binary64 arithmetic, together
with the diagnostic: `divisor_` is converted to `double`, the product is
rounded, the first component tells whether the `XLOG_EVERY_MS(WARN, 500)`
statement is reached, the second is the returned value. -/
def mapToFixedPointTypeLogged (m : NumberMapper T) (input : ℚ) : Bool × Option Nat :=
  let product := Double.mul (.finite input) (Double.ofUInt m.divisor_)
  let warned := Double.gt (Double.abs product) (groupSizeDouble T)
  (warned, (Double.castToIntmax product).map fun i => toUnsigned intmaxBits i % 2 ^ T.bits)

/-- The method `mapToFixedPointType(double)` in binary64 arithmetic. -/
def mapToFixedPointType (m : NumberMapper T) (input : ℚ) : Option Nat :=
  (mapToFixedPointTypeLogged m input).2

/-- The method `mapToUnsignedDouble(FixedPointType)` in binary64 arithmetic:
both operands are converted to `double` and the quotient is rounded. -/
def mapToUnsignedDouble (m : NumberMapper T) (input : Nat) : Double :=
  Double.div (Double.ofUInt input) (Double.ofUInt m.divisor_)

/-- The method `mapToSignedDouble(FixedPointType)` in binary64 arithmetic: the
input is converted to `SignedFixedPointType`, both operands are converted to
`double` and the quotient is rounded. -/
def mapToSignedDouble (m : NumberMapper T) (input : Nat) : Double :=
  Double.div (Double.ofInt (toSigned T.signedBits input)) (Double.ofUInt m.divisor_)

end Binary64

/-- A call of a public method on a mapper, with its argument. -/
inductive Call where
  | mapToFixedPointType (input : ℚ)
  | mapToFixedPointTypeVector (input : List ℚ)
  | mapToUnsignedDouble (input : Nat)
  | mapToUnsignedDoubleVector (input : List Nat)
  | mapToSignedDouble (input : Nat)
  | mapToSignedDoubleVector (input : List Nat)
  | getDivisor
  | setDivisor (divisor : Nat)

/-- The state of the object after a call: the conversions and `getDivisor`
are `const` methods and leave it as it is, `setDivisor` leaves the state
computed by `NumberMapper.setDivisor`. -/
def after (m : NumberMapper T) : Call → NumberMapper T
  | .setDivisor divisor => (setDivisor m divisor).2
  | _ => m

/-- Whether a call is a `setDivisor` call that returns without throwing. -/
def isSuccessfulSetDivisor (m : NumberMapper T) : Call → Bool
  | .setDivisor divisor =>
    match (setDivisor m divisor).1 with
    | .ok _ => true
    | .error _ => false
  | _ => false

/-- The state of the object after a sequence of calls, made in order. -/
def run (m : NumberMapper T) : List Call → NumberMapper T
  | [] => m
  | c :: cs => run (after m c) cs

/-- The state after a sequence of `setDivisor` calls, provided each of them
returns without throwing. -/
def setDivisorAll (m : NumberMapper T) : List Nat → Option (NumberMapper T)
  | [] => some m
  | d :: ds =>
    match (setDivisor m d).1 with
    | .ok _ => setDivisorAll (setDivisor m d).2 ds
    | .error _ => none

/-- Whether no call of a sequence is a `setDivisor` call that succeeds. -/
def noSuccessfulSetDivisor (m : NumberMapper T) : List Call → Bool
  | [] => true
  | c :: cs => !isSuccessfulSetDivisor m c && noSuccessfulSetDivisor (after m c) cs

end NumberMapper

/-! ## Auxiliary facts about the conversions -/

theorem bits_le_intmaxBits (T : FixedPointType) : T.bits ≤ intmaxBits := by
  cases T <;> decide

theorem bits_pos (T : FixedPointType) : 0 < T.bits := by
  cases T <;> decide

theorem signedBits_eq_bits (T : FixedPointType) : T.signedBits = T.bits := by
  cases T <;> rfl

theorem truncate_of_nonneg {q : ℚ} (h : 0 ≤ q) : truncate q = ⌊q⌋ := by
  simp [truncate, h]

theorem truncate_of_neg {q : ℚ} (h : q < 0) : truncate q = ⌈q⌉ := by
  simp [truncate, not_le.mpr h]

theorem truncate_intCast (z : Int) : truncate (z : ℚ) = z := by
  unfold truncate
  split <;> simp

theorem truncate_eq_of_nonneg {q : ℚ} {z : Int} (h0 : 0 ≤ q) (h1 : (z : ℚ) ≤ q)
    (h2 : q < (z : ℚ) + 1) : truncate q = z := by
  rw [truncate_of_nonneg h0, Int.floor_eq_iff]
  exact ⟨h1, h2⟩

theorem truncate_eq_of_neg {q : ℚ} {z : Int} (h0 : q < 0) (h1 : (z : ℚ) - 1 < q)
    (h2 : q ≤ (z : ℚ)) : truncate q = z := by
  rw [truncate_of_neg h0, Int.ceil_eq_iff]
  exact ⟨h1, h2⟩

/-- Converting to `uintmax_t` and then to a type of at most 64 bits is a
single reduction modulo `2 ^ w`. -/
theorem toUnsigned_intmax_mod (w : Nat) (hw : w ≤ intmaxBits) (i : Int) :
    toUnsigned intmaxBits i % 2 ^ w = (i % (2 : Int) ^ w).toNat := by
  unfold toUnsigned
  have h64 : (0 : Int) < (2 : Int) ^ intmaxBits := by positivity
  have hwpos : (0 : Int) < (2 : Int) ^ w := by positivity
  have hdvd : ((2 : Int) ^ w) ∣ (2 : Int) ^ intmaxBits := pow_dvd_pow 2 hw
  have h1 : 0 ≤ i % (2 : Int) ^ intmaxBits := Int.emod_nonneg _ (ne_of_gt h64)
  have h2 : 0 ≤ i % (2 : Int) ^ w := Int.emod_nonneg _ (ne_of_gt hwpos)
  apply Int.ofNat_inj.mp
  simp only [Int.ofNat_eq_coe, Int.natCast_mod, Int.toNat_of_nonneg h1, Int.toNat_of_nonneg h2]
  push_cast
  exact Int.emod_emod_of_dvd i hdvd

theorem castToIntmax_of_fits {q : ℚ} (hlo : -(2 : Int) ^ 63 ≤ truncate q)
    (hhi : truncate q < (2 : Int) ^ 63) : castToIntmax q = some (truncate q) := by
  unfold castToIntmax intmaxBits
  rw [if_pos ⟨hlo, hhi⟩]

theorem castToIntmax_of_large {q : ℚ} (h : (2 : Int) ^ 63 ≤ truncate q) :
    castToIntmax q = none := by
  unfold castToIntmax intmaxBits
  rw [if_neg]
  intro hc
  exact absurd hc.2 (not_lt.mpr h)

/-! ## Rounding to binary64 -/

theorem floor_eq_of_bounds {x : ℚ} {f : Int} (h1 : (f : ℚ) ≤ x) (h2 : x < (f : ℚ) + 1) :
    ⌊x⌋ = f := by
  rw [Int.floor_eq_iff]
  exact ⟨h1, h2⟩

theorem roundHalfEven_intCast (n : Int) : roundHalfEven (n : ℚ) = n := by
  unfold roundHalfEven
  rw [Int.floor_intCast, sub_self, if_pos (by norm_num)]

theorem roundHalfEven_of_lt_half {x : ℚ} {f : Int} (h1 : (f : ℚ) ≤ x)
    (h2 : x < (f : ℚ) + 1 / 2) : roundHalfEven x = f := by
  have hf : ⌊x⌋ = f := floor_eq_of_bounds h1 (by linarith)
  unfold roundHalfEven
  rw [hf, if_pos (by linarith)]

theorem roundHalfEven_of_gt_half {x : ℚ} {f : Int} (h1 : (f : ℚ) + 1 / 2 < x)
    (h2 : x < (f : ℚ) + 1) : roundHalfEven x = f + 1 := by
  have hf : ⌊x⌋ = f := floor_eq_of_bounds (by linarith) h2
  unfold roundHalfEven
  rw [hf, if_neg (by linarith), if_pos (by linarith)]

theorem roundHalfEven_tie_even {x : ℚ} {f : Int} (hx : x = (f : ℚ) + 1 / 2)
    (hf : f % 2 = 0) : roundHalfEven x = f := by
  have hfl : ⌊x⌋ = f := floor_eq_of_bounds (by linarith) (by linarith)
  unfold roundHalfEven
  rw [hfl, if_neg (by linarith), if_neg (by linarith), if_pos hf]

theorem roundHalfEven_tie_odd {x : ℚ} {f : Int} (hx : x = (f : ℚ) + 1 / 2)
    (hf : f % 2 = 1) : roundHalfEven x = f + 1 := by
  have hfl : ⌊x⌋ = f := floor_eq_of_bounds (by linarith) (by linarith)
  unfold roundHalfEven
  rw [hfl, if_neg (by linarith), if_neg (by linarith), if_neg (by omega)]

theorem int_log_two_eq {q : ℚ} {e : Int} (h1 : (2 : ℚ) ^ e ≤ q) (h2 : q < (2 : ℚ) ^ (e + 1)) :
    Int.log 2 q = e := by
  have hq : 0 < q := lt_of_lt_of_le (by positivity) h1
  have hle : e ≤ Int.log 2 q :=
    (Int.zpow_le_iff_le_log (by norm_num : 1 < 2) hq).mp (by exact_mod_cast h1)
  have hlt : Int.log 2 q < e + 1 :=
    (Int.lt_zpow_iff_log_lt (by norm_num : 1 < 2) hq).mp (by exact_mod_cast h2)
  omega

theorem ulpExponent_eq {q : ℚ} {e : Int} (h1 : (2 : ℚ) ^ e ≤ |q|)
    (h2 : |q| < (2 : ℚ) ^ (e + 1)) (he : -1022 ≤ e) : ulpExponent q = e - 52 := by
  unfold ulpExponent
  rw [int_log_two_eq h1 h2]
  exact max_eq_left (by omega)

theorem ulpExponent_zero : ulpExponent 0 = -52 := by
  unfold ulpExponent
  rw [abs_zero, Int.log_zero_right]
  decide

namespace Double

theorem round_eq {q : ℚ} {k n : Int} (hk : ulpExponent q = k)
    (hn : roundHalfEven (q / (2 : ℚ) ^ k) = n)
    (hlt : |(n : ℚ) * (2 : ℚ) ^ k| < (2 : ℚ) ^ (1024 : Nat)) :
    round q = finite ((n : ℚ) * (2 : ℚ) ^ k) := by
  unfold round
  rw [hk, hn, if_pos hlt]

/-- A multiple of the spacing around it, below `2 ^ 1024` in magnitude, is a
binary64 value: rounding returns it. -/
theorem round_of_multiple {q : ℚ} {k n : Int} (hk : ulpExponent q = k)
    (hq : q / (2 : ℚ) ^ k = (n : ℚ)) (hlt : |q| < (2 : ℚ) ^ (1024 : Nat)) :
    round q = finite q := by
  have hpow : (2 : ℚ) ^ k ≠ 0 := zpow_ne_zero k (by norm_num)
  have hval : (n : ℚ) * (2 : ℚ) ^ k = q := by
    rw [← hq, div_mul_cancel₀ _ hpow]
  have h := round_eq hk (by rw [hq, roundHalfEven_intCast]) (by rw [hval]; exact hlt)
  rw [h, hval]

theorem round_zero : round 0 = finite 0 :=
  round_of_multiple (n := 0) ulpExponent_zero (by norm_num) (by norm_num)

/-- An integer of magnitude at most `2 ^ 53` is a binary64 value: its
conversion to `double` is exact. -/
theorem round_intCast_of_abs_le (z : Int) (h : |z| ≤ 2 ^ 53) :
    round (z : ℚ) = finite (z : ℚ) := by
  by_cases hz : z = 0
  · subst hz
    simpa using round_zero
  have hapos : 0 < z.natAbs := Int.natAbs_pos.mpr hz
  have hale : z.natAbs ≤ 2 ^ 53 := by
    have : ((z.natAbs : Nat) : Int) ≤ 2 ^ 53 := by rw [Int.natCast_natAbs]; exact h
    exact_mod_cast this
  have habs : |(z : ℚ)| = ((z.natAbs : Nat) : ℚ) := by
    rw [Nat.cast_natAbs, Int.cast_abs]
  have hlo : 2 ^ Nat.log 2 z.natAbs ≤ z.natAbs := Nat.pow_log_le_self 2 (ne_of_gt hapos)
  have hhi : z.natAbs < 2 ^ (Nat.log 2 z.natAbs + 1) :=
    Nat.lt_pow_succ_log_self (by norm_num) _
  have he : Nat.log 2 z.natAbs ≤ 53 := by
    by_contra hc
    have h54 : 2 ^ 54 ≤ 2 ^ Nat.log 2 z.natAbs :=
      Nat.pow_le_pow_right (by norm_num) (by omega)
    have : 2 ^ 54 ≤ 2 ^ 53 := le_trans h54 (le_trans hlo hale)
    norm_num at this
  have hk : ulpExponent (z : ℚ) = (Nat.log 2 z.natAbs : Int) - 52 := by
    apply ulpExponent_eq
    · rw [habs, zpow_natCast]
      exact_mod_cast hlo
    · rw [habs]
      have : ((Nat.log 2 z.natAbs : Int) + 1) = ((Nat.log 2 z.natAbs + 1 : Nat) : Int) := by
        push_cast
        rfl
      rw [this, zpow_natCast]
      exact_mod_cast hhi
    · omega
  have hlt : |(z : ℚ)| < (2 : ℚ) ^ (1024 : Nat) := by
    rw [habs]
    have h1 : ((z.natAbs : Nat) : ℚ) ≤ 2 ^ 53 := by exact_mod_cast hale
    have h2 : (2 : ℚ) ^ 53 < (2 : ℚ) ^ (1024 : Nat) := by norm_num
    linarith
  have hpow : (2 : ℚ) ^ ((Nat.log 2 z.natAbs : Int) - 52) ≠ 0 := zpow_ne_zero _ (by norm_num)
  by_cases he52 : Nat.log 2 z.natAbs ≤ 52
  · refine round_of_multiple (n := z * 2 ^ (52 - Nat.log 2 z.natAbs)) hk ?_ hlt
    rw [div_eq_iff hpow]
    push_cast
    rw [mul_assoc, ← zpow_natCast, ← zpow_add₀ (by norm_num : (2 : ℚ) ≠ 0)]
    have : ((52 - Nat.log 2 z.natAbs : Nat) : Int) + ((Nat.log 2 z.natAbs : Int) - 52) = 0 := by
      omega
    rw [this, zpow_zero, mul_one]
  · have he53 : Nat.log 2 z.natAbs = 53 := by omega
    have ha : z.natAbs = 2 ^ 53 := by
      rw [he53] at hlo
      omega
    have hz2 : z = 2 * (z / 2) := by
      rcases Int.natAbs_eq z with h1 | h1 <;> rw [ha] at h1 <;> rw [h1] <;> norm_num
    refine round_of_multiple (n := z / 2) hk ?_ hlt
    rw [div_eq_iff hpow, he53]
    have hq : (z : ℚ) = 2 * ((z / 2 : Int) : ℚ) := by exact_mod_cast congrArg (fun i : Int => (i : ℚ)) hz2
    norm_num
    linarith

theorem ofUInt_of_le (n : Nat) (h : n ≤ 2 ^ 53) : ofUInt n = finite (n : ℚ) := by
  have := round_intCast_of_abs_le (n : Int) (by rw [abs_of_nonneg (by positivity)]; exact_mod_cast h)
  simpa [ofUInt] using this

theorem ofInt_of_abs_le (z : Int) (h : |z| ≤ 2 ^ 53) : ofInt z = finite (z : ℚ) :=
  round_intCast_of_abs_le z h

end Double

/-- Filling a destination of the source's length stores exactly the results
of `op`, in order: the call has a result `ys` if and only if the list of the
scalar results is the list of the elements of `ys`. -/
theorem transform_replicate_eq_some_iff {α β : Type} (op : α → Option β) (z : β) :
    ∀ (src : List α) (ys : List β),
      transform op src (List.replicate src.length z) = some ys ↔
        List.map op src = List.map some ys := by
  intro src
  induction src with
  | nil =>
    intro ys
    cases ys <;> simp [transform]
  | cons a rest ih =>
    intro ys
    simp only [transform, List.length_cons, List.replicate_succ, List.map_cons]
    cases hop : op a with
    | none =>
      cases ys <;> simp
    | some b =>
      cases hrest : transform op rest (List.replicate rest.length z) with
      | none =>
        cases ys with
        | nil => simp
        | cons y ys' =>
          have := (ih ys').not.mp (by rw [hrest]; simp)
          simp [this]
      | some stored =>
        have hs := (ih stored).mp hrest
        cases ys with
        | nil => simp
        | cons y ys' =>
          simp only [Option.some.injEq, List.cons.injEq, List.map_cons]
          constructor
          · rintro ⟨rfl, rfl⟩
            exact ⟨rfl, hs⟩
          · rintro ⟨rfl, h⟩
            refine ⟨rfl, ?_⟩
            have := (ih ys').mpr h
            rw [hrest] at this
            exact Option.some.inj this

/-- A list of scalar results that equals the list of the elements of `ys` has
the length of `ys` and agrees with it position by position. -/
theorem length_and_getElem_of_map_eq {α β : Type} {op : α → Option β} {src : List α}
    {ys : List β} (h : List.map op src = List.map some ys) :
    ys.length = src.length ∧
      ∀ (i : Nat) (h1 : i < src.length) (h2 : i < ys.length), op src[i] = some ys[i] := by
  have hlen : ys.length = src.length := by
    have := congrArg List.length h
    simpa using this.symm
  refine ⟨hlen, fun i h1 h2 => ?_⟩
  have hi := congrArg (fun l => l[i]?) h
  simpa [List.getElem?_map, List.getElem?_eq_getElem h1, List.getElem?_eq_getElem h2] using hi

namespace NumberMapper

variable {T : FixedPointType}

/-- The returned value of `mapToFixedPointType` when the truncated product
fits in `intmax_t`. -/
theorem mapToFixedPointType_of_fits (m : NumberMapper T) (r : ℚ)
    (hlo : -(2 : Int) ^ 63 ≤ truncate (r * (m.divisor_ : ℚ)))
    (hhi : truncate (r * (m.divisor_ : ℚ)) < (2 : Int) ^ 63) :
    mapToFixedPointType m r =
      some (truncate (r * (m.divisor_ : ℚ)) % (2 : Int) ^ T.bits).toNat := by
  unfold mapToFixedPointType mapToFixedPointTypeLogged
  simp only [castToIntmax_of_fits hlo hhi, Option.map_some']
  rw [toUnsigned_intmax_mod _ (bits_le_intmaxBits T)]

/-- The returned value of `mapToFixedPointType` on a nonnegative product
below the group size and within `intmax_t`. -/
theorem mapToFixedPointType_of_nonneg (m : NumberMapper T) (r : ℚ)
    (h0 : 0 ≤ r * (m.divisor_ : ℚ)) (hW : r * (m.divisor_ : ℚ) < 2 ^ T.bits)
    (h63 : r * (m.divisor_ : ℚ) < 2 ^ 63) :
    mapToFixedPointType m r = some ⌊r * (m.divisor_ : ℚ)⌋.toNat := by
  have hfl0 : 0 ≤ ⌊r * (m.divisor_ : ℚ)⌋ := Int.floor_nonneg.mpr h0
  have hflW : ⌊r * (m.divisor_ : ℚ)⌋ < (2 : Int) ^ T.bits := by
    rw [Int.floor_lt]
    push_cast
    exact hW
  have hfl63 : ⌊r * (m.divisor_ : ℚ)⌋ < (2 : Int) ^ 63 := by
    rw [Int.floor_lt]
    push_cast
    exact h63
  have ht := truncate_of_nonneg h0
  rw [mapToFixedPointType_of_fits m r (by rw [ht]; omega) (by rw [ht]; exact hfl63), ht,
    Int.emod_eq_of_lt hfl0 hflW]

theorem mapToUnsignedDouble_of_pos (m : NumberMapper T) (v : Nat) (hd : 0 < m.divisor_) :
    mapToUnsignedDouble m v = some ((v : ℚ) / (m.divisor_ : ℚ)) := by
  unfold mapToUnsignedDouble
  rw [if_neg (Nat.pos_iff_ne_zero.mp hd)]

/-- The unsigned round trip of a nonnegative input whose product is below the
group size and within `intmax_t`: the result is `⌊r * d⌋ / d`, which is at
most `r` and misses it by less than `1 / d`. -/
theorem unsigned_round_trip_of_nonneg (m : NumberMapper T) (r : ℚ)
    (hr : 0 ≤ r) (hd : 0 < m.divisor_) (hW : r * (m.divisor_ : ℚ) < 2 ^ T.bits)
    (h63 : r * (m.divisor_ : ℚ) < 2 ^ 63) :
    ∃ v x, mapToFixedPointType m r = some v ∧ mapToUnsignedDouble m v = some x ∧
      x = (⌊r * (m.divisor_ : ℚ)⌋ : ℚ) / (m.divisor_ : ℚ) ∧
      0 ≤ r - x ∧ r - x < 1 / (m.divisor_ : ℚ) := by
  have hdq : (0 : ℚ) < (m.divisor_ : ℚ) := by exact_mod_cast hd
  have h0 : 0 ≤ r * (m.divisor_ : ℚ) := mul_nonneg hr (le_of_lt hdq)
  have hfl0 : 0 ≤ ⌊r * (m.divisor_ : ℚ)⌋ := Int.floor_nonneg.mpr h0
  have hcast : ((⌊r * (m.divisor_ : ℚ)⌋.toNat : Nat) : ℚ) = (⌊r * (m.divisor_ : ℚ)⌋ : ℚ) := by
    have h := Int.toNat_of_nonneg hfl0
    exact_mod_cast congrArg (fun z : Int => (z : ℚ)) h
  refine ⟨⌊r * (m.divisor_ : ℚ)⌋.toNat, (⌊r * (m.divisor_ : ℚ)⌋ : ℚ) / (m.divisor_ : ℚ),
    mapToFixedPointType_of_nonneg m r h0 hW h63, ?_, rfl, ?_, ?_⟩
  · rw [mapToUnsignedDouble_of_pos m _ hd, hcast]
  · have hle : (⌊r * (m.divisor_ : ℚ)⌋ : ℚ) ≤ r * (m.divisor_ : ℚ) := Int.floor_le _
    have : (⌊r * (m.divisor_ : ℚ)⌋ : ℚ) / (m.divisor_ : ℚ) ≤ r := by
      rw [div_le_iff₀ hdq]
      exact hle
    linarith
  · have hlt : r * (m.divisor_ : ℚ) < (⌊r * (m.divisor_ : ℚ)⌋ : ℚ) + 1 := Int.lt_floor_add_one _
    have : r - (⌊r * (m.divisor_ : ℚ)⌋ : ℚ) / (m.divisor_ : ℚ) =
        (r * (m.divisor_ : ℚ) - (⌊r * (m.divisor_ : ℚ)⌋ : ℚ)) / (m.divisor_ : ℚ) := by
      field_simp
    rw [this, div_lt_div_iff_of_pos_right hdq]
    linarith

/-! ## Construction and reconfiguration -/

/-- C1: the constructor fails with the configuration error exactly when the
divisor exceeds `2 ^ W - 1`, and otherwise returns the mapper of width `W`
holding that divisor. -/
theorem create_error_iff (T : FixedPointType) (d : Nat) :
    (create T d = .error (.invalid_argument divisorTooLarge) ↔ d > 2 ^ T.bits - 1) ∧
    (create T d = .ok ⟨d⟩ ↔ d ≤ 2 ^ T.bits - 1) ∧
    (∀ m : NumberMapper T, create T d = .ok m ↔
      (d ≤ 2 ^ T.bits - 1 ∧ m.width = T.bits ∧ m.getDivisor = d)) := by
  unfold create FixedPointType.max
  by_cases h : d > 2 ^ T.bits - 1
  · simp [h]
  · have h2 : d ≤ 2 ^ T.bits - 1 := not_lt.mp h
    simp only [h, if_false, false_iff, true_iff, not_false_eq_true, h2, true_and,
      reduceCtorEq, Except.ok.injEq, width, getDivisor]
    intro m
    constructor
    · intro hm
      rw [← hm]
    · intro hm
      cases m
      simp_all

/-- C1, at the inputs named by the specification: with an 8-bit storage type
the divisor 300 is rejected and the divisor 100 is accepted. -/
theorem create_error_iff_witness :
    create uint8_t 300 = .error (.invalid_argument divisorTooLarge) ∧
    create uint8_t 100 = .ok ⟨100⟩ :=
  ⟨(create_error_iff uint8_t 300).1.mpr (by decide),
   (create_error_iff uint8_t 100).2.1.mpr (by decide)⟩

/-- C2: `setDivisor` fails exactly when the new divisor exceeds `2 ^ W - 1`,
which is exactly when construction with that divisor fails, and a failed call
leaves the mapper as it was. -/
theorem setDivisor_error_iff (m : NumberMapper T) (d : Nat) :
    ((setDivisor m d).1 = .error (.invalid_argument divisorTooLarge) ↔ d > 2 ^ T.bits - 1) ∧
    ((setDivisor m d).1 = .ok () ↔ d ≤ 2 ^ T.bits - 1) ∧
    ((setDivisor m d).1 = .error (.invalid_argument divisorTooLarge) ↔
      create T d = .error (.invalid_argument divisorTooLarge)) ∧
    ((setDivisor m d).1 = .error (.invalid_argument divisorTooLarge) →
      (setDivisor m d).2.getDivisor = m.getDivisor) := by
  unfold setDivisor create FixedPointType.max
  by_cases h : d > 2 ^ T.bits - 1
  · simp [h]
  · have h2 : d ≤ 2 ^ T.bits - 1 := not_lt.mp h
    simp [h, h2]

/-- C2 on an 8-bit mapper with divisor 100: setting the divisor to 300 fails
and the divisor is still 100. -/
theorem setDivisor_error_iff_witness :
    (setDivisor (T := uint8_t) ⟨100⟩ 300).1 = .error (.invalid_argument divisorTooLarge) ∧
    (setDivisor (T := uint8_t) ⟨100⟩ 300).2.getDivisor = 100 :=
  ⟨(setDivisor_error_iff (T := uint8_t) ⟨100⟩ 300).1.mpr (by decide),
   (setDivisor_error_iff (T := uint8_t) ⟨100⟩ 300).2.2.2
     ((setDivisor_error_iff (T := uint8_t) ⟨100⟩ 300).1.mpr (by decide))⟩

/-! ## Scalar conversions -/

theorem truncate_three_mul_hundred : truncate ((3 : ℚ) * ((100 : Nat) : ℚ)) = 300 := by
  have := truncate_intCast 300
  push_cast at this
  norm_num
  simpa using this

theorem truncate_three_halves_mul_hundred :
    truncate ((3 / 2 : ℚ) * ((100 : Nat) : ℚ)) = 150 := by
  have := truncate_intCast 150
  norm_num at this ⊢
  exact this

/-- Reinterpretation of a `W`-bit value as a signed `W`-bit integer. -/
theorem toSigned_of_lt {w v : Nat} (hv : v < 2 ^ w) :
    toSigned w v = if 2 ^ (w - 1) ≤ v then (v : Int) - (2 : Int) ^ w else (v : Int) := by
  unfold toSigned
  rw [Nat.mod_eq_of_lt hv]
  by_cases h : v < 2 ^ (w - 1)
  · rw [if_pos h, if_neg (not_le.mpr h)]
  · rw [if_neg h, if_pos (not_lt.mp h)]

/-- C9: below the sign threshold `2 ^ W / 2` the signed and the unsigned
decoding of a value agree. -/
theorem mapToSignedDouble_eq_mapToUnsignedDouble (m : NumberMapper T) (v : Nat)
    (hv : v < 2 ^ T.bits / 2) :
    mapToSignedDouble m v = mapToUnsignedDouble m v := by
  have hpow : 2 ^ T.bits / 2 = 2 ^ (T.bits - 1) := by
    obtain ⟨k, hk⟩ := Nat.exists_eq_succ_of_ne_zero (Nat.pos_iff_ne_zero.mp (bits_pos T))
    rw [hk, Nat.pow_succ]
    simp
  have hlt : v < 2 ^ T.bits := lt_of_lt_of_le hv (Nat.div_le_self _ _)
  unfold mapToSignedDouble mapToUnsignedDouble
  rw [signedBits_eq_bits, toSigned_of_lt hlt, if_neg (not_le.mpr (hpow ▸ hv))]
  push_cast
  rfl

/-- C9 at width 8 and divisor 100: the value 100 is below 128 and both
decodings return 1. -/
theorem mapToSignedDouble_eq_mapToUnsignedDouble_witness :
    100 < 2 ^ uint8_t.bits / 2 ∧
    mapToSignedDouble (T := uint8_t) ⟨100⟩ 100 = mapToUnsignedDouble (T := uint8_t) ⟨100⟩ 100 ∧
    mapToUnsignedDouble (T := uint8_t) ⟨100⟩ 100 = some 1 := by
  refine ⟨by decide, ?_, ?_⟩
  · exact mapToSignedDouble_eq_mapToUnsignedDouble (T := uint8_t) ⟨100⟩ 100 (by decide)
  · norm_num [mapToUnsignedDouble]

/-! ## Precision of the unsigned round trip -/

theorem truncate_neg_three_halves_mul_hundred :
    truncate ((-3 / 2 : ℚ) * ((100 : Nat) : ℚ)) = -150 := by
  have := truncate_intCast (-150)
  norm_num at this ⊢
  exact this

theorem truncate_eight_mul_thirty_two :
    truncate ((8 : ℚ) * ((32 : Nat) : ℚ)) = 256 := by
  have := truncate_intCast 256
  norm_num at this ⊢
  exact this

theorem truncate_two_pow_63 :
    truncate ((2 ^ 63 : ℚ) * ((1 : Nat) : ℚ)) = 2 ^ 63 := by
  have := truncate_intCast (2 ^ 63)
  norm_num at this ⊢
  exact this

/-- C5 fails on a negative input, on a product equal to the group size, on a
64-bit product that does not fit in `intmax_t`, and on a zero divisor.
With width 8 and divisor 100 the input -1.5 is encoded as 106 and decoded as
1.06; with width 8 and divisor 32 the input 8 has product 256, is encoded as
0 and decoded as 0; with width 64 and divisor 1 the input `2 ^ 63` has no
encoding; with width 8 and divisor 0 the input 1 is encoded as 0, which has
no decoding. -/
theorem relative_error_bound_fails :
    ((1 : ℚ) ≤ |(-3 / 2 : ℚ)| ∧ |(-3 / 2 : ℚ) * ((100 : Nat) : ℚ)| ≤ 2 ^ uint8_t.bits ∧
      mapToFixedPointType (T := uint8_t) ⟨100⟩ (-3 / 2) = some 106 ∧
      mapToUnsignedDouble (T := uint8_t) ⟨100⟩ 106 = some (53 / 50) ∧
      ¬ (|(53 / 50 : ℚ) - (-3 / 2)| / |(-3 / 2 : ℚ)| < |(-3 / 2 : ℚ)| / ((100 : Nat) : ℚ))) ∧
    ((1 : ℚ) ≤ |(8 : ℚ)| ∧ |(8 : ℚ) * ((32 : Nat) : ℚ)| ≤ 2 ^ uint8_t.bits ∧
      mapToFixedPointType (T := uint8_t) ⟨32⟩ 8 = some 0 ∧
      mapToUnsignedDouble (T := uint8_t) ⟨32⟩ 0 = some 0 ∧
      ¬ (|(0 : ℚ) - 8| / |(8 : ℚ)| < |(8 : ℚ)| / ((32 : Nat) : ℚ))) ∧
    ((1 : ℚ) ≤ |(2 ^ 63 : ℚ)| ∧ |(2 ^ 63 : ℚ) * ((1 : Nat) : ℚ)| ≤ 2 ^ uint64_t.bits ∧
      mapToFixedPointType (T := uint64_t) ⟨1⟩ (2 ^ 63) = none) ∧
    ((1 : ℚ) ≤ |(1 : ℚ)| ∧ |(1 : ℚ) * ((0 : Nat) : ℚ)| ≤ 2 ^ uint8_t.bits ∧
      mapToFixedPointType (T := uint8_t) ⟨0⟩ 1 = some 0 ∧
      mapToUnsignedDouble (T := uint8_t) ⟨0⟩ 0 = none) := by
  refine ⟨⟨?_, ?_, ?_, ?_, ?_⟩, ⟨?_, ?_, ?_, ?_, ?_⟩, ⟨?_, ?_, ?_⟩, ⟨?_, ?_, ?_, ?_⟩⟩
  · norm_num [abs_of_neg]
  · norm_num [bits, abs_of_neg]
  · rw [mapToFixedPointType_of_fits _ _
      (by rw [truncate_neg_three_halves_mul_hundred]; decide)
      (by rw [truncate_neg_three_halves_mul_hundred]; decide),
      truncate_neg_three_halves_mul_hundred]
    decide
  · norm_num [mapToUnsignedDouble]
  · rw [abs_of_pos (by norm_num : (0 : ℚ) < 53 / 50 - (-3 / 2)),
      abs_of_neg (by norm_num : (-3 / 2 : ℚ) < 0)]
    norm_num
  · norm_num
  · norm_num [bits]
  · rw [mapToFixedPointType_of_fits _ _
      (by rw [truncate_eight_mul_thirty_two]; decide)
      (by rw [truncate_eight_mul_thirty_two]; decide),
      truncate_eight_mul_thirty_two]
    decide
  · norm_num [mapToUnsignedDouble]
  · norm_num
  · norm_num
  · norm_num [bits]
  · unfold mapToFixedPointType mapToFixedPointTypeLogged
    simp only [Option.map_eq_none']
    apply castToIntmax_of_large
    rw [truncate_two_pow_63]
  · norm_num
  · norm_num [bits]
  · rw [mapToFixedPointType_of_nonneg _ _ (by norm_num) (by norm_num [bits]) (by norm_num)]
    norm_num
  · rfl

/-- C5 (amended): for a real `r ≥ 1` and a mapper with a positive divisor `d`
whose product `r * d` is below the group size `2 ^ W` and below `2 ^ 63`, the
unsigned round trip has a result and its relative error is strictly less than
`|r| / d`. -/
theorem relative_error_bound (m : NumberMapper T) (r : ℚ)
    (hr : 1 ≤ r) (hd : 0 < m.divisor_) (hW : r * (m.divisor_ : ℚ) < 2 ^ T.bits)
    (h63 : r * (m.divisor_ : ℚ) < 2 ^ 63) :
    ∃ v x, mapToFixedPointType m r = some v ∧ mapToUnsignedDouble m v = some x ∧
      |x - r| / |r| < |r| / (m.divisor_ : ℚ) := by
  have hr0 : (0 : ℚ) < r := lt_of_lt_of_le one_pos hr
  have hdq : (0 : ℚ) < (m.divisor_ : ℚ) := by exact_mod_cast hd
  obtain ⟨v, x, hv, hx, _, hlo, hhi⟩ :=
    unsigned_round_trip_of_nonneg m r (le_of_lt hr0) hd hW h63
  refine ⟨v, x, hv, hx, ?_⟩
  have habs : |x - r| = r - x := by
    rw [abs_sub_comm, abs_of_nonneg hlo]
  rw [habs, abs_of_pos hr0]
  calc (r - x) / r ≤ r - x := div_le_self hlo hr
    _ < 1 / (m.divisor_ : ℚ) := hhi
    _ ≤ r / (m.divisor_ : ℚ) := by
      rw [div_le_div_iff_of_pos_right hdq]
      exact hr

/-- C5 (amended) at width 8 and divisor 100: the input 1.5 has product 150,
and its round trip is within the bound. -/
theorem relative_error_bound_witness :
    ((1 : ℚ) ≤ 3 / 2 ∧ 0 < 100 ∧ (3 / 2 : ℚ) * ((100 : Nat) : ℚ) < 2 ^ uint8_t.bits ∧
      (3 / 2 : ℚ) * ((100 : Nat) : ℚ) < 2 ^ 63) ∧
    ∃ v x, mapToFixedPointType (T := uint8_t) ⟨100⟩ (3 / 2) = some v ∧
      mapToUnsignedDouble (T := uint8_t) ⟨100⟩ v = some x ∧
      |x - 3 / 2| / |(3 / 2 : ℚ)| < |(3 / 2 : ℚ)| / ((100 : Nat) : ℚ) :=
  ⟨⟨by norm_num, by decide, by norm_num [bits], by norm_num⟩,
   relative_error_bound (T := uint8_t) ⟨100⟩ (3 / 2) (by norm_num) (by decide)
     (by norm_num [bits]) (by norm_num)⟩

theorem truncate_neg_half_mul_hundred :
    truncate ((-1 / 2 : ℚ) * ((100 : Nat) : ℚ)) = -50 := by
  have := truncate_intCast (-50)
  norm_num at this ⊢
  exact this

theorem truncate_three_quarters_mul :
    truncate ((3 / 4 : ℚ) * ((3 * 2 ^ 62 : Nat) : ℚ)) = 9 * 2 ^ 60 := by
  have := truncate_intCast (9 * 2 ^ 60)
  norm_num at this ⊢
  exact this

/-- C6 fails on a negative input, on a 64-bit product that does not fit in
`intmax_t`, and on a zero divisor. With width 8 and divisor 100 the input
-0.5 is encoded as 206 and decoded as 2.06; with width 64 and divisor
`3 * 2 ^ 62` the input 0.75 has product `9 * 2 ^ 60` and no encoding; with
width 8 and divisor 0 the input 0.5 is encoded as 0, which has no
decoding. -/
theorem absolute_error_bound_fails :
    (|(-1 / 2 : ℚ)| < 1 ∧ |(-1 / 2 : ℚ) * ((100 : Nat) : ℚ)| ≤ 2 ^ uint8_t.bits ∧
      mapToFixedPointType (T := uint8_t) ⟨100⟩ (-1 / 2) = some 206 ∧
      mapToUnsignedDouble (T := uint8_t) ⟨100⟩ 206 = some (103 / 50) ∧
      ¬ (|(103 / 50 : ℚ) - (-1 / 2)| < 1 / ((100 : Nat) : ℚ))) ∧
    (|(3 / 4 : ℚ)| < 1 ∧ |(3 / 4 : ℚ) * ((3 * 2 ^ 62 : Nat) : ℚ)| ≤ 2 ^ uint64_t.bits ∧
      3 * 2 ^ 62 ≤ 2 ^ uint64_t.bits - 1 ∧
      mapToFixedPointType (T := uint64_t) ⟨3 * 2 ^ 62⟩ (3 / 4) = none) ∧
    (|(1 / 2 : ℚ)| < 1 ∧ |(1 / 2 : ℚ) * ((0 : Nat) : ℚ)| ≤ 2 ^ uint8_t.bits ∧
      mapToFixedPointType (T := uint8_t) ⟨0⟩ (1 / 2) = some 0 ∧
      mapToUnsignedDouble (T := uint8_t) ⟨0⟩ 0 = none) := by
  refine ⟨⟨?_, ?_, ?_, ?_, ?_⟩, ⟨?_, ?_, ?_, ?_⟩, ⟨?_, ?_, ?_, ?_⟩⟩
  · rw [abs_of_neg (by norm_num : (-1 / 2 : ℚ) < 0)]
    norm_num
  · rw [abs_of_neg (by norm_num : (-1 / 2 : ℚ) * ((100 : Nat) : ℚ) < 0)]
    norm_num [bits]
  · rw [mapToFixedPointType_of_fits _ _
      (by rw [truncate_neg_half_mul_hundred]; decide)
      (by rw [truncate_neg_half_mul_hundred]; decide),
      truncate_neg_half_mul_hundred]
    decide
  · norm_num [mapToUnsignedDouble]
  · rw [abs_of_pos (by norm_num : (0 : ℚ) < 103 / 50 - (-1 / 2))]
    norm_num
  · rw [abs_of_pos (by norm_num : (0 : ℚ) < 3 / 4)]
    norm_num
  · rw [abs_of_pos (by norm_num : (0 : ℚ) < (3 / 4 : ℚ) * ((3 * 2 ^ 62 : Nat) : ℚ))]
    norm_num [bits]
  · decide
  · unfold mapToFixedPointType mapToFixedPointTypeLogged
    simp only [Option.map_eq_none']
    apply castToIntmax_of_large
    rw [truncate_three_quarters_mul]
    decide
  · rw [abs_of_pos (by norm_num : (0 : ℚ) < 1 / 2)]
    norm_num
  · norm_num [bits]
  · rw [mapToFixedPointType_of_nonneg _ _ (by norm_num) (by norm_num [bits]) (by norm_num)]
    norm_num
  · rfl

/-- C6 (amended): for a real `0 ≤ r < 1` and a mapper whose divisor `d`
satisfies `0 < d ≤ 2 ^ W - 1`, with the product `r * d` below `2 ^ 63`, the
product is below the group size, the unsigned round trip has a result and its
absolute error is strictly less than `1 / d`. -/
theorem absolute_error_bound (m : NumberMapper T) (r : ℚ)
    (hr0 : 0 ≤ r) (hr1 : r < 1) (hd : 0 < m.divisor_) (hmax : m.divisor_ ≤ 2 ^ T.bits - 1)
    (h63 : r * (m.divisor_ : ℚ) < 2 ^ 63) :
    |r * (m.divisor_ : ℚ)| ≤ 2 ^ T.bits ∧
    ∃ v x, mapToFixedPointType m r = some v ∧ mapToUnsignedDouble m v = some x ∧
      |x - r| < 1 / (m.divisor_ : ℚ) := by
  have hdq : (0 : ℚ) < (m.divisor_ : ℚ) := by exact_mod_cast hd
  have hlt : m.divisor_ < 2 ^ T.bits := by
    have : 0 < 2 ^ T.bits := Nat.two_pow_pos T.bits
    omega
  have hltq : (m.divisor_ : ℚ) < 2 ^ T.bits := by exact_mod_cast hlt
  have hp0 : 0 ≤ r * (m.divisor_ : ℚ) := mul_nonneg hr0 (le_of_lt hdq)
  have hW : r * (m.divisor_ : ℚ) < 2 ^ T.bits := by
    calc r * (m.divisor_ : ℚ) ≤ 1 * (m.divisor_ : ℚ) :=
          mul_le_mul_of_nonneg_right (le_of_lt hr1) (le_of_lt hdq)
      _ = (m.divisor_ : ℚ) := one_mul _
      _ < 2 ^ T.bits := hltq
  obtain ⟨v, x, hv, hx, _, hlo, hhi⟩ := unsigned_round_trip_of_nonneg m r hr0 hd hW h63
  refine ⟨by rw [abs_of_nonneg hp0]; exact le_of_lt hW, v, x, hv, hx, ?_⟩
  rw [abs_sub_comm, abs_of_nonneg hlo]
  exact hhi

/-- C6 (amended) at width 8 and divisor 100: the input 0.505 is encoded as 50
and decoded as 0.5, within 0.01 of the input. -/
theorem absolute_error_bound_witness :
    ((0 : ℚ) ≤ 101 / 200 ∧ (101 / 200 : ℚ) < 1 ∧ 0 < 100 ∧ 100 ≤ 2 ^ uint8_t.bits - 1 ∧
      (101 / 200 : ℚ) * ((100 : Nat) : ℚ) < 2 ^ 63) ∧
    |(101 / 200 : ℚ) * ((100 : Nat) : ℚ)| ≤ 2 ^ uint8_t.bits ∧
    ∃ v x, mapToFixedPointType (T := uint8_t) ⟨100⟩ (101 / 200) = some v ∧
      mapToUnsignedDouble (T := uint8_t) ⟨100⟩ v = some x ∧
      |x - 101 / 200| < 1 / ((100 : Nat) : ℚ) :=
  ⟨⟨by norm_num, by norm_num, by decide, by decide, by norm_num⟩,
   absolute_error_bound (T := uint8_t) ⟨100⟩ (101 / 200) (by norm_num) (by norm_num)
     (by decide) (by decide) (by norm_num)⟩

/-! ## The precision diagnostic -/

/-- C7 fails for the 32-bit storage type: with divisor 1 the input 1 has
product 1, far below `2 ^ 32`, yet the warning statement is reached because
`groupSizeDouble` is 0 there; the value 1 is returned all the same. For the
8-bit and 16-bit storage types the warning statement is reached exactly when
`|r * d| > 2 ^ W`. -/
theorem warning_uint32_below_group_size :
    ((mapToFixedPointTypeLogged (T := uint32_t) ⟨1⟩ 1).1 = true ∧
      ¬ (|(1 : ℚ) * ((1 : Nat) : ℚ)| > 2 ^ uint32_t.bits) ∧
      (mapToFixedPointTypeLogged (T := uint32_t) ⟨1⟩ 1).2 = some 1) ∧
    (∀ (m : NumberMapper uint8_t) (r : ℚ),
      (mapToFixedPointTypeLogged m r).1 = true ↔ |r * (m.divisor_ : ℚ)| > 2 ^ uint8_t.bits) ∧
    (∀ (m : NumberMapper uint16_t) (r : ℚ),
      (mapToFixedPointTypeLogged m r).1 = true ↔ |r * (m.divisor_ : ℚ)| > 2 ^ uint16_t.bits) := by
  have h32 : groupSizeDouble uint32_t = 0 := by
    have h : groupSizeInt uint32_t = 0 := by decide
    unfold groupSizeDouble
    rw [h]
    rfl
  have h8 : groupSizeDouble uint8_t = 2 ^ uint8_t.bits := by
    have h : groupSizeInt uint8_t = 256 := by decide
    unfold groupSizeDouble
    rw [h]
    norm_num [bits]
  have h16 : groupSizeDouble uint16_t = 2 ^ uint16_t.bits := by
    have h : groupSizeInt uint16_t = 65536 := by decide
    unfold groupSizeDouble
    rw [h]
    norm_num [bits]
  refine ⟨⟨?_, ?_, ?_⟩, ?_, ?_⟩
  · simp only [mapToFixedPointTypeLogged, h32]
    norm_num
  · norm_num [bits]
  · have h := mapToFixedPointType_of_nonneg (T := uint32_t) ⟨1⟩ 1 (by norm_num)
      (by norm_num [bits]) (by norm_num)
    unfold mapToFixedPointType at h
    rw [h]
    norm_num
  · intro m r
    simp only [mapToFixedPointTypeLogged, h8, decide_eq_true_eq]
  · intro m r
    simp only [mapToFixedPointTypeLogged, h16, decide_eq_true_eq]

/-! ## Batch conversions -/

theorem mapToFixedPointType_three :
    mapToFixedPointType (T := uint8_t) ⟨100⟩ 3 = some 44 := by
  rw [mapToFixedPointType_of_fits _ _
    (by rw [truncate_three_mul_hundred]; decide)
    (by rw [truncate_three_mul_hundred]; decide), truncate_three_mul_hundred]
  decide

theorem mapToFixedPointType_three_halves :
    mapToFixedPointType (T := uint8_t) ⟨100⟩ (3 / 2) = some 150 := by
  rw [mapToFixedPointType_of_fits _ _
    (by rw [truncate_three_halves_mul_hundred]; decide)
    (by rw [truncate_three_halves_mul_hundred]; decide), truncate_three_halves_mul_hundred]
  decide

/-- C10: each batch method returns the element-wise map of its scalar form.
It has a result `ys` exactly when the list of the scalar results of the
inputs is the list of the elements of `ys`; then `ys` has the length of the
input and its `i`-th element is the scalar result for the `i`-th input; the
empty sequence is mapped to the empty sequence. -/
theorem vector_methods_elementwise (m : NumberMapper T) :
    (∀ (xs : List ℚ) (ys : List Nat),
      (mapToFixedPointTypeVector m xs = some ys ↔
        List.map (mapToFixedPointType m) xs = List.map some ys) ∧
      (mapToFixedPointTypeVector m xs = some ys →
        ys.length = xs.length ∧ ∀ (i : Nat) (h1 : i < xs.length) (h2 : i < ys.length),
          mapToFixedPointType m xs[i] = some ys[i])) ∧
    (∀ (vs : List Nat) (ys : List ℚ),
      (mapToUnsignedDoubleVector m vs = some ys ↔
        List.map (mapToUnsignedDouble m) vs = List.map some ys) ∧
      (mapToUnsignedDoubleVector m vs = some ys →
        ys.length = vs.length ∧ ∀ (i : Nat) (h1 : i < vs.length) (h2 : i < ys.length),
          mapToUnsignedDouble m vs[i] = some ys[i])) ∧
    (∀ (vs : List Nat) (ys : List ℚ),
      (mapToSignedDoubleVector m vs = some ys ↔
        List.map (mapToSignedDouble m) vs = List.map some ys) ∧
      (mapToSignedDoubleVector m vs = some ys →
        ys.length = vs.length ∧ ∀ (i : Nat) (h1 : i < vs.length) (h2 : i < ys.length),
          mapToSignedDouble m vs[i] = some ys[i])) ∧
    mapToFixedPointTypeVector m [] = some [] ∧
    mapToUnsignedDoubleVector m [] = some [] ∧
    mapToSignedDoubleVector m [] = some [] := by
  refine ⟨fun xs ys => ?_, fun vs ys => ?_, fun vs ys => ?_, rfl, rfl, rfl⟩
  · have h := transform_replicate_eq_some_iff (fun a => mapToFixedPointType m a) 0 xs ys
    exact ⟨h, fun hv => length_and_getElem_of_map_eq (h.mp hv)⟩
  · have h := transform_replicate_eq_some_iff (fun a => mapToUnsignedDouble m a) 0 vs ys
    exact ⟨h, fun hv => length_and_getElem_of_map_eq (h.mp hv)⟩
  · have h := transform_replicate_eq_some_iff (fun a => mapToSignedDouble m a) 0 vs ys
    exact ⟨h, fun hv => length_and_getElem_of_map_eq (h.mp hv)⟩

/-- C10 at width 8 and divisor 100: the batch encoding of `[1.5, 3.0]` is
`[150, 44]`, the batch unsigned decoding of `[150, 44]` is `[1.5, 0.44]` and
the batch signed decoding of `[150, 44]` is `[-1.06, 0.44]`. -/
theorem vector_methods_elementwise_witness :
    mapToFixedPointTypeVector (T := uint8_t) ⟨100⟩ [3 / 2, 3] = some [150, 44] ∧
    mapToUnsignedDoubleVector (T := uint8_t) ⟨100⟩ [150, 44] = some [3 / 2, 11 / 25] ∧
    mapToSignedDoubleVector (T := uint8_t) ⟨100⟩ [150, 44] = some [-53 / 50, 11 / 25] := by
  have h := vector_methods_elementwise (T := uint8_t) ⟨100⟩
  refine ⟨(h.1 _ _).1.mpr ?_, (h.2.1 _ _).1.mpr ?_, (h.2.2.1 _ _).1.mpr ?_⟩
  · simp only [List.map_cons, List.map_nil, mapToFixedPointType_three_halves,
      mapToFixedPointType_three]
  · norm_num [mapToUnsignedDouble]
  · norm_num [mapToSignedDouble, toSigned, signedBits]

/-! ## Sequences of calls -/

theorem create_eq_ok {d : Nat} {m : NumberMapper T} (h : create T d = .ok m) :
    m.divisor_ = d ∧ d ≤ 2 ^ T.bits - 1 := by
  unfold create FixedPointType.max at h
  by_cases hd : d > 2 ^ T.bits - 1
  · rw [if_pos hd] at h
    exact Except.noConfusion h
  · rw [if_neg hd] at h
    have hm : (⟨d⟩ : NumberMapper T) = m := Except.ok.inj h
    exact ⟨by rw [← hm], not_lt.mp hd⟩

theorem setDivisor_state (m : NumberMapper T) (d : Nat) :
    (setDivisor m d).2 = if d > 2 ^ T.bits - 1 then m else ⟨d⟩ := by
  unfold setDivisor FixedPointType.max
  by_cases hd : d > 2 ^ T.bits - 1
  · rw [if_pos hd, if_pos hd]
  · rw [if_neg hd, if_neg hd]

theorem setDivisor_ok_iff (m : NumberMapper T) (d : Nat) :
    (setDivisor m d).1 = .ok () ↔ d ≤ 2 ^ T.bits - 1 := by
  unfold setDivisor FixedPointType.max
  by_cases hd : d > 2 ^ T.bits - 1
  · simp [hd]
  · simp [hd, not_lt.mp hd]

theorem after_divisor_le (m : NumberMapper T) (c : Call)
    (h : m.divisor_ ≤ 2 ^ T.bits - 1) : (after m c).divisor_ ≤ 2 ^ T.bits - 1 := by
  cases c with
  | setDivisor d =>
    simp only [after, setDivisor_state]
    by_cases hd : d > 2 ^ T.bits - 1
    · rw [if_pos hd]
      exact h
    · rw [if_neg hd]
      exact not_lt.mp hd
  | _ => exact h

theorem run_divisor_le (cs : List Call) :
    ∀ m : NumberMapper T, m.divisor_ ≤ 2 ^ T.bits - 1 →
      (run m cs).divisor_ ≤ 2 ^ T.bits - 1 := by
  induction cs with
  | nil => exact fun m h => h
  | cons c cs ih => exact fun m h => ih (after m c) (after_divisor_le m c h)

theorem run_eq_self_of_noSuccessfulSetDivisor (cs : List Call) :
    ∀ m : NumberMapper T, noSuccessfulSetDivisor m cs = true → run m cs = m := by
  induction cs with
  | nil => exact fun m _ => rfl
  | cons c cs ih =>
    intro m h
    simp only [noSuccessfulSetDivisor, Bool.and_eq_true, Bool.not_eq_true'] at h
    have hafter : after m c = m := by
      cases c with
      | setDivisor d =>
        have hfail : ¬ d ≤ 2 ^ T.bits - 1 := by
          intro hle
          have hok := (setDivisor_ok_iff m d).mpr hle
          have := h.1
          simp [isSuccessfulSetDivisor, hok] at this
        simp only [after, setDivisor_state]
        rw [if_pos (not_le.mp hfail)]
      | _ => rfl
    simp only [run]
    rw [hafter]
    rw [hafter] at h
    exact ih m h.2

theorem setDivisorAll_pos (ds : List Nat) :
    ∀ m m1 : NumberMapper T, 0 < m.divisor_ → (∀ d ∈ ds, 0 < d) →
      setDivisorAll m ds = some m1 → 0 < m1.divisor_ := by
  induction ds with
  | nil =>
    intro m m1 hm _ h
    simp only [setDivisorAll, Option.some.injEq] at h
    rw [← h]
    exact hm
  | cons d ds ih =>
    intro m m1 _ hall h
    have hd : 0 < d := hall d (List.mem_cons_self d ds)
    simp only [setDivisorAll] at h
    by_cases hle : d ≤ 2 ^ T.bits - 1
    · have hok := (setDivisor_ok_iff m d).mpr hle
      rw [hok] at h
      simp only at h
      refine ih (setDivisor m d).2 m1 ?_ (fun e he => hall e (List.mem_cons_of_mem d he)) h
      rw [setDivisor_state, if_neg (not_lt.mpr hle)]
      exact hd
    · cases hres : (setDivisor m d).1 with
      | ok u =>
        exact absurd ((setDivisor_ok_iff m d).mp hres) hle
      | error e =>
        rw [hres] at h
        exact Option.noConfusion h

/-- C11: after a successful construction, whatever sequence of `setDivisor`
calls (succeeding or throwing) and conversion calls follows, the stored
divisor is at most `2 ^ W - 1`. -/
theorem divisor_le_max_invariant (d : Nat) (m0 : NumberMapper T) (cs : List Call)
    (h : create T d = .ok m0) : (run m0 cs).getDivisor ≤ 2 ^ T.bits - 1 := by
  obtain ⟨hm, hd⟩ := create_eq_ok h
  exact run_divisor_le cs m0 (by rw [hm]; exact hd)

/-- C11 on an 8-bit mapper created with divisor 100: after a rejected
`setDivisor(300)`, an encoding, an accepted `setDivisor(7)` and a decoding
the divisor is 7, which is at most 255. -/
theorem divisor_le_max_invariant_witness :
    create uint8_t 100 = .ok ⟨100⟩ ∧
    (run (T := uint8_t) ⟨100⟩
      [.setDivisor 300, .mapToFixedPointType 3, .setDivisor 7, .mapToSignedDouble 150]).getDivisor
        ≤ 2 ^ uint8_t.bits - 1 ∧
    (run (T := uint8_t) ⟨100⟩
      [.setDivisor 300, .mapToFixedPointType 3, .setDivisor 7, .mapToSignedDouble 150]).getDivisor
        = 7 := by
  have hc : create uint8_t 100 = .ok ⟨100⟩ := by
    unfold create FixedPointType.max
    rw [if_neg (by decide)]
  refine ⟨hc, divisor_le_max_invariant 100 ⟨100⟩ _ hc, ?_⟩
  have h300 : 300 > 2 ^ uint8_t.bits - 1 := by decide
  have h7 : ¬ 7 > 2 ^ uint8_t.bits - 1 := by decide
  simp only [run, after, setDivisor_state, getDivisor, if_pos h300, if_neg h7]

/-- C12: when `setDivisor(d)` succeeds, `getDivisor` returns `d`, and after any
further calls none of which is a successful `setDivisor` the mapper still
holds `d`: encoding multiplies by `d` and both decodings divide by `d`. -/
theorem setDivisor_takes_effect (m : NumberMapper T) (d : Nat) (cs : List Call)
    (hok : (setDivisor m d).1 = .ok ())
    (hcs : noSuccessfulSetDivisor (setDivisor m d).2 cs = true) :
    (setDivisor m d).2.getDivisor = d ∧
    (run (setDivisor m d).2 cs).getDivisor = d ∧
    (∀ r : ℚ, mapToFixedPointType (run (setDivisor m d).2 cs) r =
      (castToIntmax (r * (d : ℚ))).map fun i => toUnsigned intmaxBits i % 2 ^ T.bits) ∧
    (∀ v : Nat, mapToUnsignedDouble (run (setDivisor m d).2 cs) v =
      if d = 0 then none else some ((v : ℚ) / (d : ℚ))) ∧
    (∀ v : Nat, mapToSignedDouble (run (setDivisor m d).2 cs) v =
      if d = 0 then none else some ((toSigned T.signedBits v : ℚ) / (d : ℚ))) := by
  have hle := (setDivisor_ok_iff m d).mp hok
  have hstate : (setDivisor m d).2 = ⟨d⟩ := by
    rw [setDivisor_state, if_neg (not_lt.mpr hle)]
  have hrun := run_eq_self_of_noSuccessfulSetDivisor cs _ hcs
  rw [hrun, hstate]
  exact ⟨rfl, rfl, fun _ => rfl, fun _ => rfl, fun _ => rfl⟩

/-- C12 on an 8-bit mapper with divisor 100: after `setDivisor(50)`, a
rejected `setDivisor(300)` and an encoding, the divisor is 50 and the value
75 is decoded as 1.5. -/
theorem setDivisor_takes_effect_witness :
    (setDivisor (T := uint8_t) ⟨100⟩ 50).1 = .ok () ∧
    (run (setDivisor (T := uint8_t) ⟨100⟩ 50).2
      [.setDivisor 300, .mapToFixedPointType 3]).getDivisor = 50 ∧
    mapToUnsignedDouble (run (setDivisor (T := uint8_t) ⟨100⟩ 50).2
      [.setDivisor 300, .mapToFixedPointType 3]) 75 = some (3 / 2) := by
  have hok : (setDivisor (T := uint8_t) ⟨100⟩ 50).1 = .ok () :=
    (setDivisor_ok_iff _ _).mpr (by decide)
  have hcs : noSuccessfulSetDivisor (setDivisor (T := uint8_t) ⟨100⟩ 50).2
      [.setDivisor 300, .mapToFixedPointType 3] = true := by
    simp only [noSuccessfulSetDivisor, isSuccessfulSetDivisor, after, setDivisor,
      FixedPointType.max, bits]
    decide
  have h := setDivisor_takes_effect (T := uint8_t) ⟨100⟩ 50 _ hok hcs
  refine ⟨hok, h.2.1, ?_⟩
  rw [h.2.2.2.1 75]
  norm_num

/-- C13 fails: the constructor and `setDivisor` accept the divisor 0. With an
8-bit storage type `create(0)` returns a mapper whose divisor is 0, and
`setDivisor(0)` succeeds on a mapper with divisor 100; on such a mapper both
decodings divide by zero and have no real result. -/
theorem zero_divisor_accepted :
    create uint8_t 0 = .ok ⟨0⟩ ∧
    ¬ (0 < (⟨0⟩ : NumberMapper uint8_t).getDivisor) ∧
    setDivisorAll (T := uint8_t) ⟨100⟩ [0] = some ⟨0⟩ ∧
    mapToUnsignedDouble (T := uint8_t) ⟨0⟩ 150 = none ∧
    mapToSignedDouble (T := uint8_t) ⟨0⟩ 150 = none := by
  refine ⟨?_, by decide, ?_, rfl, rfl⟩
  · unfold create FixedPointType.max
    rw [if_neg (by decide)]
  · have hok : (setDivisor (T := uint8_t) ⟨100⟩ 0).1 = .ok () :=
      (setDivisor_ok_iff _ _).mpr (by decide)
    simp only [setDivisorAll, hok, setDivisor_state]
    rw [if_neg (by decide)]

/-- C13 (amended): a mapper obtained from a successful construction and a
sequence of successful `setDivisor` calls, all with a positive divisor
argument, has a positive divisor, and both decodings of any value have a
result. -/
theorem divisor_pos_of_pos_arguments (d0 : Nat) (ds : List Nat) (m0 m : NumberMapper T)
    (hc : create T d0 = .ok m0) (hs : setDivisorAll m0 ds = some m)
    (hpos : ∀ d ∈ d0 :: ds, 0 < d) :
    0 < m.getDivisor ∧
    ∀ v : Nat, mapToUnsignedDouble m v = some ((v : ℚ) / (m.divisor_ : ℚ)) ∧
      mapToSignedDouble m v = some ((toSigned T.signedBits v : ℚ) / (m.divisor_ : ℚ)) := by
  have hm0 : 0 < m0.divisor_ := by
    rw [(create_eq_ok hc).1]
    exact hpos d0 (List.mem_cons_self d0 ds)
  have hm : 0 < m.divisor_ :=
    setDivisorAll_pos ds m0 m hm0 (fun d hd => hpos d (List.mem_cons_of_mem d0 hd)) hs
  refine ⟨hm, fun v => ⟨mapToUnsignedDouble_of_pos m v hm, ?_⟩⟩
  unfold mapToSignedDouble
  rw [if_neg (Nat.pos_iff_ne_zero.mp hm)]

/-- C13 (amended) on an 8-bit mapper created with divisor 100 and then given
the divisors 50 and 25: the divisor is 25 and the value 150 is decoded as
6. -/
theorem divisor_pos_of_pos_arguments_witness :
    (create uint8_t 100 = .ok ⟨100⟩ ∧ setDivisorAll (T := uint8_t) ⟨100⟩ [50, 25] = some ⟨25⟩ ∧
      ∀ d ∈ [100, 50, 25], 0 < d) ∧
    0 < (⟨25⟩ : NumberMapper uint8_t).getDivisor ∧
    mapToUnsignedDouble (T := uint8_t) ⟨25⟩ 150 = some 6 := by
  have hc : create uint8_t 100 = .ok ⟨100⟩ := by
    unfold create FixedPointType.max
    rw [if_neg (by decide)]
  have hs : setDivisorAll (T := uint8_t) ⟨100⟩ [50, 25] = some ⟨25⟩ := by
    have h1 : (setDivisor (T := uint8_t) ⟨100⟩ 50).1 = .ok () :=
      (setDivisor_ok_iff _ _).mpr (by decide)
    have h2 : (setDivisor (T := uint8_t) ⟨50⟩ 25).1 = .ok () :=
      (setDivisor_ok_iff _ _).mpr (by decide)
    have s1 : (setDivisor (T := uint8_t) ⟨100⟩ 50).2 = ⟨50⟩ := by
      rw [setDivisor_state, if_neg (by decide)]
    have s2 : (setDivisor (T := uint8_t) ⟨50⟩ 25).2 = ⟨25⟩ := by
      rw [setDivisor_state, if_neg (by decide)]
    simp only [setDivisorAll, h1, s1, h2, s2]
  have hpos : ∀ d ∈ [100, 50, 25], 0 < d := by decide
  have h := divisor_pos_of_pos_arguments (T := uint8_t) 100 [50, 25] ⟨100⟩ ⟨25⟩ hc hs hpos
  refine ⟨⟨hc, hs, hpos⟩, h.1, ?_⟩
  rw [(h.2 150).1]
  norm_num

/-! ## Round trips and symmetry -/

theorem abs_truncate_sub_lt_one (q : ℚ) : |(truncate q : ℚ) - q| < 1 := by
  by_cases h : 0 ≤ q
  · rw [truncate_of_nonneg h, abs_sub_comm, abs_of_nonneg (by linarith [Int.floor_le q])]
    linarith [Int.lt_floor_add_one q]
  · rw [truncate_of_neg (not_le.mp h), abs_of_nonneg (by linarith [Int.le_ceil q])]
    linarith [Int.ceil_lt_add_one q]

/-- A signed `w`-bit integer survives the conversion to the unsigned `w`-bit
type and back. -/
theorem toSigned_toNat_emod {w : Nat} (hw : 0 < w) {t : Int}
    (hlo : -(2 : Int) ^ (w - 1) ≤ t) (hhi : t < (2 : Int) ^ (w - 1)) :
    toSigned w (t % (2 : Int) ^ w).toNat = t := by
  obtain ⟨k, rfl⟩ := Nat.exists_eq_succ_of_ne_zero (Nat.pos_iff_ne_zero.mp hw)
  simp only [Nat.succ_sub_one] at hlo hhi
  have hP : (0 : Int) < (2 : Int) ^ k := by positivity
  have h2 : (2 : Int) ^ (k + 1) = 2 * (2 : Int) ^ k := by rw [pow_succ]; ring
  have hM : (0 : Int) < (2 : Int) ^ (k + 1) := by positivity
  have hnn : 0 ≤ t % (2 : Int) ^ (k + 1) := Int.emod_nonneg _ (ne_of_gt hM)
  have hltM : t % (2 : Int) ^ (k + 1) < (2 : Int) ^ (k + 1) := Int.emod_lt_of_pos _ hM
  have hu : (((t % (2 : Int) ^ (k + 1)).toNat : Nat) : Int) = t % (2 : Int) ^ (k + 1) :=
    Int.toNat_of_nonneg hnn
  have hlt : (t % (2 : Int) ^ (k + 1)).toNat < 2 ^ (k + 1) := by
    rw [← Int.ofNat_lt]
    push_cast
    rw [hu]
    exact hltM
  rw [toSigned_of_lt hlt]
  simp only [Nat.succ_sub_one]
  by_cases ht : 0 ≤ t
  · have hmod : t % (2 : Int) ^ (k + 1) = t := Int.emod_eq_of_lt ht (by rw [h2]; omega)
    have hsmall : ¬ 2 ^ k ≤ (t % (2 : Int) ^ (k + 1)).toNat := by
      rw [← Int.ofNat_le]
      push_cast
      rw [hu, hmod]
      omega
    rw [if_neg hsmall, hu, hmod]
  · have hmod : t % (2 : Int) ^ (k + 1) = t + (2 : Int) ^ (k + 1) := by
      rw [← Int.add_emod_self]
      exact Int.emod_eq_of_lt (by rw [h2]; omega) (by omega)
    have hbig : 2 ^ k ≤ (t % (2 : Int) ^ (k + 1)).toNat := by
      rw [← Int.ofNat_le]
      push_cast
      rw [hu, hmod, h2]
      omega
    rw [if_pos hbig, hu, hmod]
    ring

theorem truncate_neg_106 :
    truncate ((-53 / 50 : ℚ) * ((100 : Nat) : ℚ)) = -106 := by
  have := truncate_intCast (-106)
  norm_num at this ⊢
  exact this

/-- C14: for a positive divisor `d` and a real `r` whose truncated product
`t = trunc(r * d)` lies in `[-2^(W-1), 2^(W-1))`, encoding `r` and decoding
the result as signed gives `t / d`, which differs from `r` by less than
`1 / d`. -/
theorem signed_round_trip (m : NumberMapper T) (r : ℚ) (hd : 0 < m.divisor_)
    (hlo : -(2 : Int) ^ (T.bits - 1) ≤ truncate (r * (m.divisor_ : ℚ)))
    (hhi : truncate (r * (m.divisor_ : ℚ)) < (2 : Int) ^ (T.bits - 1)) :
    ∃ v x, mapToFixedPointType m r = some v ∧ mapToSignedDouble m v = some x ∧
      x = (truncate (r * (m.divisor_ : ℚ)) : ℚ) / (m.divisor_ : ℚ) ∧
      |x - r| < 1 / (m.divisor_ : ℚ) := by
  have hdq : (0 : ℚ) < (m.divisor_ : ℚ) := by exact_mod_cast hd
  have hpow : (2 : Int) ^ (T.bits - 1) ≤ (2 : Int) ^ 63 := by
    cases T <;> norm_num [bits]
  refine ⟨_, _, mapToFixedPointType_of_fits m r (by omega) (by omega), ?_, rfl, ?_⟩
  · unfold mapToSignedDouble
    rw [if_neg (Nat.pos_iff_ne_zero.mp hd), signedBits_eq_bits,
      toSigned_toNat_emod (bits_pos T) hlo hhi]
  · have hsub : (truncate (r * (m.divisor_ : ℚ)) : ℚ) / (m.divisor_ : ℚ) - r =
        ((truncate (r * (m.divisor_ : ℚ)) : ℚ) - r * (m.divisor_ : ℚ)) / (m.divisor_ : ℚ) := by
      rw [sub_div, mul_div_assoc, div_self (ne_of_gt hdq), mul_one]
    rw [hsub, abs_div, abs_of_pos hdq, div_lt_div_iff_of_pos_right hdq]
    exact abs_truncate_sub_lt_one _

/-- C14 at width 8 and divisor 100: the input -1.06 has truncated product
-106, which lies in `[-128, 128)`; it is encoded as 150 and decoded as signed
to -1.06. -/
theorem signed_round_trip_witness :
    (0 < 100 ∧ -(2 : Int) ^ (uint8_t.bits - 1) ≤ truncate ((-53 / 50 : ℚ) * ((100 : Nat) : ℚ)) ∧
      truncate ((-53 / 50 : ℚ) * ((100 : Nat) : ℚ)) < (2 : Int) ^ (uint8_t.bits - 1)) ∧
    ∃ v x, mapToFixedPointType (T := uint8_t) ⟨100⟩ (-53 / 50) = some v ∧
      mapToSignedDouble (T := uint8_t) ⟨100⟩ v = some x ∧
      x = (truncate ((-53 / 50 : ℚ) * ((100 : Nat) : ℚ)) : ℚ) / ((100 : Nat) : ℚ) ∧
      |x - (-53 / 50)| < 1 / ((100 : Nat) : ℚ) := by
  have hlo : -(2 : Int) ^ (uint8_t.bits - 1) ≤ truncate ((-53 / 50 : ℚ) * ((100 : Nat) : ℚ)) := by
    rw [truncate_neg_106]; decide
  have hhi : truncate ((-53 / 50 : ℚ) * ((100 : Nat) : ℚ)) < (2 : Int) ^ (uint8_t.bits - 1) := by
    rw [truncate_neg_106]; decide
  exact ⟨⟨by decide, hlo, hhi⟩,
    signed_round_trip (T := uint8_t) ⟨100⟩ (-53 / 50) (by decide) hlo hhi⟩

theorem truncate_two_pow_63_add_2048 :
    truncate ((2 ^ 63 + 2048 : ℚ) * ((1 : Nat) : ℚ)) = 2 ^ 63 + 2048 := by
  have := truncate_intCast (2 ^ 63 + 2048)
  norm_num at this ⊢
  exact this

theorem mapToFixedPointType_two_pow_63_add_2048 (T : FixedPointType) :
    mapToFixedPointType (T := T) ⟨1⟩ (2 ^ 63 + 2048) = none := by
  unfold mapToFixedPointType mapToFixedPointTypeLogged
  simp only [Option.map_eq_none']
  apply castToIntmax_of_large
  rw [truncate_two_pow_63_add_2048]
  norm_num

/-- C15 fails for the 64-bit storage type on a product of `2 ^ 63` or more:
with divisor 1 the nonnegative input `2 ^ 63 + 2048` has a product below
`2 ^ 64`, but its conversion to `intmax_t` has no result, so there is no
encoding to decode. -/
theorem unsigned_floor_round_trip_fails :
    (0 : ℚ) ≤ 2 ^ 63 + 2048 ∧ 0 < 1 ∧
    (2 ^ 63 + 2048 : ℚ) * ((1 : Nat) : ℚ) < 2 ^ uint64_t.bits ∧
    mapToFixedPointType (T := uint64_t) ⟨1⟩ (2 ^ 63 + 2048) = none := by
  refine ⟨by norm_num, by decide, by norm_num [bits], ?_⟩
  exact mapToFixedPointType_two_pow_63_add_2048 uint64_t

/-- C15 (amended): for a positive divisor `d` and a real `r ≥ 0` with
`r * d < 2 ^ W` and `r * d < 2 ^ 63`, the unsigned round trip returns
`⌊r * d⌋ / d`, so it never exceeds `r` and falls short of it by less than
`1 / d`. -/
theorem unsigned_floor_round_trip (m : NumberMapper T) (r : ℚ)
    (hr : 0 ≤ r) (hd : 0 < m.divisor_) (hW : r * (m.divisor_ : ℚ) < 2 ^ T.bits)
    (h63 : r * (m.divisor_ : ℚ) < 2 ^ 63) :
    ∃ v x, mapToFixedPointType m r = some v ∧ mapToUnsignedDouble m v = some x ∧
      x = (⌊r * (m.divisor_ : ℚ)⌋ : ℚ) / (m.divisor_ : ℚ) ∧
      0 ≤ r - x ∧ r - x < 1 / (m.divisor_ : ℚ) :=
  unsigned_round_trip_of_nonneg m r hr hd hW h63

/-- C15 (amended) at width 8 and divisor 100: the input 1.505 has product
150.5; its round trip is `150 / 100`. -/
theorem unsigned_floor_round_trip_witness :
    ((0 : ℚ) ≤ 301 / 200 ∧ 0 < 100 ∧ (301 / 200 : ℚ) * ((100 : Nat) : ℚ) < 2 ^ uint8_t.bits ∧
      (301 / 200 : ℚ) * ((100 : Nat) : ℚ) < 2 ^ 63) ∧
    ∃ v x, mapToFixedPointType (T := uint8_t) ⟨100⟩ (301 / 200) = some v ∧
      mapToUnsignedDouble (T := uint8_t) ⟨100⟩ v = some x ∧
      x = (⌊(301 / 200 : ℚ) * ((100 : Nat) : ℚ)⌋ : ℚ) / ((100 : Nat) : ℚ) ∧
      0 ≤ 301 / 200 - x ∧ 301 / 200 - x < 1 / ((100 : Nat) : ℚ) :=
  ⟨⟨by norm_num, by decide, by norm_num [bits], by norm_num⟩,
   unsigned_floor_round_trip (T := uint8_t) ⟨100⟩ (301 / 200) (by norm_num) (by decide)
     (by norm_num [bits]) (by norm_num)⟩

/-- C17 fails for the 64-bit storage type on a value of `2 ^ 63` or more: with
divisor 1 the value `2 ^ 63 + 2048` is decoded as `2 ^ 63 + 2048`, whose
conversion to `intmax_t` has no result, so it is not encoded back. -/
theorem encode_decode_fails :
    (0 < 1 ∧ 1 ≤ 2 ^ uint64_t.bits - 1 ∧ 2 ^ 63 + 2048 < 2 ^ uint64_t.bits) ∧
    mapToUnsignedDouble (T := uint64_t) ⟨1⟩ (2 ^ 63 + 2048) = some (2 ^ 63 + 2048) ∧
    mapToFixedPointType (T := uint64_t) ⟨1⟩ (2 ^ 63 + 2048) = none := by
  refine ⟨by decide, ?_, mapToFixedPointType_two_pow_63_add_2048 uint64_t⟩
  norm_num [mapToUnsignedDouble]

/-- C17 (amended): for a positive divisor `d` and a `W`-bit value `v` below
`2 ^ 63`, the unsigned decoding of `v` has a result and encoding that result
returns `v`. -/
theorem encode_decode (m : NumberMapper T) (v : Nat) (hd : 0 < m.divisor_)
    (hv : v < 2 ^ T.bits) (h63 : v < 2 ^ 63) :
    ∃ x, mapToUnsignedDouble m v = some x ∧ mapToFixedPointType m x = some v := by
  have hdq : (0 : ℚ) < (m.divisor_ : ℚ) := by exact_mod_cast hd
  have hprod : (v : ℚ) / (m.divisor_ : ℚ) * (m.divisor_ : ℚ) = (v : ℚ) :=
    div_mul_cancel₀ _ (ne_of_gt hdq)
  refine ⟨_, mapToUnsignedDouble_of_pos m v hd, ?_⟩
  rw [mapToFixedPointType_of_nonneg m _ (by rw [hprod]; positivity)
    (by rw [hprod]; exact_mod_cast hv) (by rw [hprod]; exact_mod_cast h63), hprod]
  have hfloor : ⌊(v : ℚ)⌋ = (v : Int) := Int.floor_natCast v
  rw [hfloor, Int.toNat_ofNat]

/-- C17 (amended) at width 8 and divisor 100: the value 150 is decoded as 1.5
and 1.5 is encoded as 150. -/
theorem encode_decode_witness :
    (0 < 100 ∧ 150 < 2 ^ uint8_t.bits ∧ 150 < 2 ^ 63) ∧
    (∃ x, mapToUnsignedDouble (T := uint8_t) ⟨100⟩ 150 = some x ∧
      mapToFixedPointType (T := uint8_t) ⟨100⟩ x = some 150) ∧
    mapToUnsignedDouble (T := uint8_t) ⟨100⟩ 150 = some (3 / 2) ∧
    mapToFixedPointType (T := uint8_t) ⟨100⟩ (3 / 2) = some 150 := by
  refine ⟨by decide, encode_decode (T := uint8_t) ⟨100⟩ 150 (by decide) (by decide) (by decide),
    ?_, mapToFixedPointType_three_halves⟩
  norm_num [mapToUnsignedDouble]

/-! ## Scalar conversions in binary64 arithmetic -/

theorem binary64_mapToFixedPointType_of_product (m : NumberMapper T) (r p : ℚ)
    (hp : Double.mul (.finite r) (Double.ofUInt m.divisor_) = .finite p)
    (hlo : -(2 : Int) ^ 63 ≤ truncate p) (hhi : truncate p < (2 : Int) ^ 63) :
    Binary64.mapToFixedPointType m r = some (truncate p % (2 : Int) ^ T.bits).toNat := by
  unfold Binary64.mapToFixedPointType Binary64.mapToFixedPointTypeLogged
  simp only [hp, Double.castToIntmax, intmaxBits]
  rw [if_pos ⟨hlo, hhi⟩, Option.map_some']
  have h := toUnsigned_intmax_mod T.bits (bits_le_intmaxBits T) (truncate p)
  unfold intmaxBits at h
  rw [h]

theorem binary64_mapToFixedPointType_of_large (m : NumberMapper T) (r p : ℚ)
    (hp : Double.mul (.finite r) (Double.ofUInt m.divisor_) = .finite p)
    (hbig : (2 : Int) ^ 63 ≤ truncate p) :
    Binary64.mapToFixedPointType m r = none := by
  unfold Binary64.mapToFixedPointType Binary64.mapToFixedPointTypeLogged
  simp only [hp, Double.castToIntmax, intmaxBits]
  rw [if_neg (fun hc => absurd hc.2 (not_lt.mpr hbig))]
  rfl

/-- When the double-precision product is the exact product, the binary64
encoding is the encoding in exact arithmetic. -/
theorem binary64_mapToFixedPointType_eq_exact (m : NumberMapper T) (r : ℚ)
    (hp : Double.mul (.finite r) (Double.ofUInt m.divisor_) =
      .finite (r * (m.divisor_ : ℚ))) :
    Binary64.mapToFixedPointType m r = mapToFixedPointType m r := by
  unfold Binary64.mapToFixedPointType Binary64.mapToFixedPointTypeLogged
    mapToFixedPointType mapToFixedPointTypeLogged
  simp only [hp, Double.castToIntmax, castToIntmax]

/-- The double-precision product of an input and a divisor of at most
`2 ^ 53`: the exact product rounded once. -/
theorem mul_ofUInt_of_le (r : ℚ) (d : Nat) (hd : d ≤ 2 ^ 53) :
    Double.mul (.finite r) (Double.ofUInt d) = Double.round (r * (d : ℚ)) := by
  rw [Double.ofUInt_of_le d hd]
  rfl

theorem round_two_pow_63_add_2048 :
    Double.round ((2 ^ 63 + 2048 : ℚ) * ((1 : Nat) : ℚ)) = .finite (2 ^ 63 + 2048) := by
  have hk : ulpExponent ((2 ^ 63 + 2048 : ℚ) * ((1 : Nat) : ℚ)) = 63 - 52 := by
    apply ulpExponent_eq
    · rw [abs_of_pos (by norm_num)]
      norm_num
    · rw [abs_of_pos (by norm_num)]
      norm_num
    · norm_num
  have h := Double.round_of_multiple (n := 2 ^ 52 + 1) hk (by norm_num)
    (by rw [abs_of_pos (by norm_num)]; norm_num)
  rw [h]
  norm_num

theorem ofUInt_two_pow_53_add_one : Double.ofUInt (2 ^ 53 + 1) = .finite (2 ^ 53) := by
  have hk : ulpExponent (((2 ^ 53 + 1 : Nat) : ℚ)) = 53 - 52 := by
    apply ulpExponent_eq
    · rw [abs_of_pos (by norm_num)]
      norm_num
    · rw [abs_of_pos (by norm_num)]
      norm_num
    · norm_num
  have hn : roundHalfEven (((2 ^ 53 + 1 : Nat) : ℚ) / (2 : ℚ) ^ ((53 : Int) - 52)) = 2 ^ 52 :=
    roundHalfEven_tie_even (by norm_num) (by decide)
  have h := Double.round_eq hk hn (by rw [abs_of_pos (by norm_num)]; norm_num)
  unfold Double.ofUInt
  rw [h]
  norm_num

theorem round_tie_below_five :
    Double.round ((3752999689475413 / 2251799813685248 : ℚ) * ((3 : Nat) : ℚ)) = .finite 5 := by
  have hk : ulpExponent ((3752999689475413 / 2251799813685248 : ℚ) * ((3 : Nat) : ℚ)) =
      2 - 52 := by
    apply ulpExponent_eq
    · rw [abs_of_pos (by norm_num)]
      norm_num
    · rw [abs_of_pos (by norm_num)]
      norm_num
    · norm_num
  have hn : roundHalfEven ((3752999689475413 / 2251799813685248 : ℚ) * ((3 : Nat) : ℚ) /
      (2 : ℚ) ^ ((2 : Int) - 52)) = 5629499534213119 + 1 :=
    roundHalfEven_tie_odd (by norm_num) (by decide)
  have h := Double.round_eq hk hn (by rw [abs_of_pos (by norm_num)]; norm_num)
  rw [h]
  norm_num

theorem mul_three_hundred :
    Double.mul (.finite 3) (Double.ofUInt 100) = .finite 300 := by
  rw [mul_ofUInt_of_le 3 100 (by norm_num)]
  have h := Double.round_intCast_of_abs_le 300 (abs_le.mpr ⟨by norm_num, by norm_num⟩)
  norm_num at h ⊢
  exact h

theorem mul_three_halves_hundred :
    Double.mul (.finite (3 / 2)) (Double.ofUInt 100) = .finite 150 := by
  rw [mul_ofUInt_of_le (3 / 2) 100 (by norm_num)]
  have h := Double.round_intCast_of_abs_le 150 (abs_le.mpr ⟨by norm_num, by norm_num⟩)
  norm_num at h ⊢
  exact h

theorem truncate_300 : truncate (300 : ℚ) = 300 := by
  have := truncate_intCast 300
  norm_num at this
  exact this

theorem truncate_150 : truncate (150 : ℚ) = 150 := by
  have := truncate_intCast 150
  norm_num at this
  exact this

theorem truncate_5 : truncate (5 : ℚ) = 5 := by
  have := truncate_intCast 5
  norm_num at this
  exact this

theorem truncate_two_pow_53 : truncate ((2 : ℚ) ^ 53) = 2 ^ 53 := by
  have := truncate_intCast (2 ^ 53)
  norm_num at this ⊢
  exact this

theorem truncate_two_pow_63_add_2048_plain : truncate (2 ^ 63 + 2048 : ℚ) = 2 ^ 63 + 2048 := by
  have := truncate_intCast (2 ^ 63 + 2048)
  norm_num at this ⊢
  exact this

/-- C3 fails in three ways. Beyond the range of `intmax_t` there is no result:
with a 16-bit storage type and divisor 1 the input `2 ^ 63 + 2048` has
truncated product `2 ^ 63 + 2048`, which reduces to 2048 modulo `2 ^ 16`, but
the conversion to `intmax_t` is undefined. Within the range the product is the
rounded one: with a 64-bit storage type and divisor `2 ^ 53 + 1` the input 1
is encoded as `2 ^ 53` (the divisor is rounded when converted to `double`),
not as the exact product `2 ^ 53 + 1`; with an 8-bit storage type and divisor
3 the input `3752999689475413 / 2 ^ 51` has an exact product just below 5,
which truncates to 4, but the rounded product is 5 and 5 is returned. -/
theorem mapToFixedPointType_exact_product_fails :
    (Binary64.mapToFixedPointType (T := uint16_t) ⟨1⟩ (2 ^ 63 + 2048) = none ∧
      (truncate ((2 ^ 63 + 2048 : ℚ) * ((1 : Nat) : ℚ)) % (2 : Int) ^ uint16_t.bits).toNat
        = 2048) ∧
    (Binary64.mapToFixedPointType (T := uint64_t) ⟨2 ^ 53 + 1⟩ 1 = some (2 ^ 53) ∧
      (truncate ((1 : ℚ) * ((2 ^ 53 + 1 : Nat) : ℚ)) % (2 : Int) ^ uint64_t.bits).toNat
        = 2 ^ 53 + 1) ∧
    (Binary64.mapToFixedPointType (T := uint8_t) ⟨3⟩ (3752999689475413 / 2251799813685248)
        = some 5 ∧
      (truncate ((3752999689475413 / 2251799813685248 : ℚ) * ((3 : Nat) : ℚ)) %
        (2 : Int) ^ uint8_t.bits).toNat = 4) := by
  refine ⟨⟨?_, ?_⟩, ⟨?_, ?_⟩, ⟨?_, ?_⟩⟩
  · have hp : Double.mul (.finite (2 ^ 63 + 2048)) (Double.ofUInt 1) =
        .finite (2 ^ 63 + 2048) := by
      rw [mul_ofUInt_of_le _ 1 (by norm_num)]
      exact round_two_pow_63_add_2048
    apply binary64_mapToFixedPointType_of_large _ _ _ hp
    rw [truncate_two_pow_63_add_2048_plain]
    norm_num
  · rw [truncate_two_pow_63_add_2048]
    decide
  · have hp : Double.mul (.finite 1) (Double.ofUInt (2 ^ 53 + 1)) = .finite (2 ^ 53) := by
      rw [ofUInt_two_pow_53_add_one]
      have h := Double.round_intCast_of_abs_le (2 ^ 53) (abs_le.mpr ⟨by norm_num, by norm_num⟩)
      simp only [Double.mul, one_mul]
      norm_num at h ⊢
      exact h
    rw [binary64_mapToFixedPointType_of_product _ _ _ hp
      (by rw [truncate_two_pow_53]; norm_num) (by rw [truncate_two_pow_53]; norm_num),
      truncate_two_pow_53]
    decide
  · have ht : truncate ((1 : ℚ) * ((2 ^ 53 + 1 : Nat) : ℚ)) = 2 ^ 53 + 1 := by
      have := truncate_intCast (2 ^ 53 + 1)
      norm_num at this ⊢
      exact this
    rw [ht]
    decide
  · have hp : Double.mul (.finite (3752999689475413 / 2251799813685248)) (Double.ofUInt 3) =
        .finite 5 := by
      rw [mul_ofUInt_of_le _ 3 (by norm_num)]
      exact round_tie_below_five
    rw [binary64_mapToFixedPointType_of_product _ _ _ hp
      (by rw [truncate_5]; norm_num) (by rw [truncate_5]; norm_num), truncate_5]
    decide
  · have ht : truncate ((3752999689475413 / 2251799813685248 : ℚ) * ((3 : Nat) : ℚ)) = 4 :=
      truncate_eq_of_nonneg (by norm_num) (by norm_num) (by norm_num)
    rw [ht]
    decide

/-- C3 (amended): when the double-precision product `p` of the input and of
the divisor converted to `double` is finite and its truncation fits in
`intmax_t`, `mapToFixedPointType` returns `p` truncated toward zero and
reduced modulo `2 ^ W`, a value in `[0, 2 ^ W)`; for a divisor of at most
`2 ^ 53` the product `p` is the exact product rounded to binary64. -/
theorem mapToFixedPointType_eq_truncate_double_product (m : NumberMapper T) (r p : ℚ)
    (hp : Double.mul (.finite r) (Double.ofUInt m.divisor_) = .finite p)
    (hlo : -(2 : Int) ^ 63 ≤ truncate p) (hhi : truncate p < (2 : Int) ^ 63) :
    Binary64.mapToFixedPointType m r = some (truncate p % (2 : Int) ^ T.bits).toNat ∧
    (truncate p % (2 : Int) ^ T.bits).toNat < 2 ^ T.bits ∧
    (m.divisor_ ≤ 2 ^ 53 → Double.round (r * (m.divisor_ : ℚ)) = .finite p) := by
  refine ⟨binary64_mapToFixedPointType_of_product m r p hp hlo hhi, ?_, ?_⟩
  · have hpos : (0 : Int) < (2 : Int) ^ T.bits := by positivity
    have h1 := Int.emod_lt_of_pos (truncate p) hpos
    have h0 := Int.emod_nonneg (truncate p) (ne_of_gt hpos)
    rw [← Int.ofNat_lt]
    push_cast
    rw [Int.toNat_of_nonneg h0]
    exact h1
  · intro hd
    rw [← mul_ofUInt_of_le r m.divisor_ hd]
    exact hp

/-- C3 (amended) at width 8 and divisor 100: the products of 3.0 and of 1.5
are exactly 300 and 150, the input 3.0 is encoded as `300 mod 256 = 44` and
the input 1.5 as 150. -/
theorem mapToFixedPointType_eq_truncate_double_product_witness :
    (Double.mul (.finite 3) (Double.ofUInt 100) = .finite 300 ∧
      -(2 : Int) ^ 63 ≤ truncate (300 : ℚ) ∧ truncate (300 : ℚ) < (2 : Int) ^ 63) ∧
    Binary64.mapToFixedPointType (T := uint8_t) ⟨100⟩ 3 = some 44 ∧
    Binary64.mapToFixedPointType (T := uint8_t) ⟨100⟩ (3 / 2) = some 150 := by
  have hlo : -(2 : Int) ^ 63 ≤ truncate (300 : ℚ) := by rw [truncate_300]; decide
  have hhi : truncate (300 : ℚ) < (2 : Int) ^ 63 := by rw [truncate_300]; decide
  have h3 := (mapToFixedPointType_eq_truncate_double_product (T := uint8_t) ⟨100⟩ 3 300
    mul_three_hundred hlo hhi).1
  have h15 := (mapToFixedPointType_eq_truncate_double_product (T := uint8_t) ⟨100⟩ (3 / 2) 150
    mul_three_halves_hundred (by rw [truncate_150]; decide) (by rw [truncate_150]; decide)).1
  rw [truncate_300] at h3
  rw [truncate_150] at h15
  exact ⟨⟨mul_three_hundred, hlo, hhi⟩, h3, h15⟩

theorem ofInt_natCast (n : Nat) : Double.ofInt (n : Int) = Double.ofUInt n := by
  simp [Double.ofInt, Double.ofUInt]

theorem binary64_mapToSignedDouble_of_lt (m : NumberMapper T) (v : Nat) (hv : v < 2 ^ T.bits) :
    Binary64.mapToSignedDouble m v =
      Double.div
        (Double.ofInt (if 2 ^ (T.bits - 1) ≤ v then (v : Int) - (2 : Int) ^ T.bits else (v : Int)))
        (Double.ofUInt m.divisor_) := by
  unfold Binary64.mapToSignedDouble
  rw [signedBits_eq_bits, toSigned_of_lt hv]

theorem div_zero_not_finite (x : Double) (q : ℚ) :
    Double.div x (.finite 0) ≠ .finite q := by
  cases x with
  | finite a =>
    by_cases ha : a = 0
    · simp [Double.div, ha]
    · simp [Double.div, ha]
  | infinity s => simp [Double.div]
  | nan => simp [Double.div]

theorem div_finite_of_ne {a b : ℚ} (hb : b ≠ 0) :
    Double.div (.finite a) (.finite b) = Double.round (a / b) := by
  simp only [Double.div, if_neg hb]

theorem round_two_pow_53 : Double.round ((2 : ℚ) ^ 53) = .finite ((2 : ℚ) ^ 53) := by
  have h := Double.round_intCast_of_abs_le (2 ^ 53) (abs_le.mpr ⟨by norm_num, by norm_num⟩)
  rw [Int.cast_pow] at h
  exact_mod_cast h

theorem round_neg_106_div_100 :
    Double.round (((-106 : Int) : ℚ) / ((100 : Nat) : ℚ)) =
      .finite (-2386907802506363 / 2251799813685248) := by
  have hk : ulpExponent (((-106 : Int) : ℚ) / ((100 : Nat) : ℚ)) = 0 - 52 := by
    apply ulpExponent_eq
    · rw [abs_of_neg (by norm_num)]
      norm_num
    · rw [abs_of_neg (by norm_num)]
      norm_num
    · norm_num
  have hn : roundHalfEven (((-106 : Int) : ℚ) / ((100 : Nat) : ℚ) / (2 : ℚ) ^ ((0 : Int) - 52)) =
      -4773815605012726 :=
    roundHalfEven_of_lt_half (by norm_num) (by norm_num)
  have h := Double.round_eq hk hn (by rw [abs_of_neg (by norm_num)]; norm_num)
  rw [h]
  norm_num

/-- C4 fails where the quotient is rounded and where the divisor is 0. With a
64-bit storage type and divisor 1 the value `2 ^ 53 + 1`, whose top bit is
clear, is decoded as `2 ^ 53` (the value is rounded when converted to
`double`), not as `(2 ^ 53 + 1) / 1`; with an 8-bit storage type and divisor 0
the value 150 is decoded as negative infinity. -/
theorem mapToSignedDouble_exact_quotient_fails :
    (2 ^ 53 + 1 < 2 ^ uint64_t.bits ∧ ¬ 2 ^ (uint64_t.bits - 1) ≤ 2 ^ 53 + 1 ∧
      Binary64.mapToSignedDouble (T := uint64_t) ⟨1⟩ (2 ^ 53 + 1) = .finite (2 ^ 53) ∧
      (2 : ℚ) ^ 53 ≠ ((2 ^ 53 + 1 : Nat) : ℚ) / ((1 : Nat) : ℚ)) ∧
    (150 < 2 ^ uint8_t.bits ∧
      Binary64.mapToSignedDouble (T := uint8_t) ⟨0⟩ 150 = .infinity true) := by
  have hlt : 2 ^ 53 + 1 < 2 ^ uint64_t.bits := by norm_num [bits]
  have htop : ¬ 2 ^ (uint64_t.bits - 1) ≤ 2 ^ 53 + 1 := by norm_num [bits]
  refine ⟨⟨hlt, htop, ?_, by norm_num⟩, by decide, ?_⟩
  · rw [binary64_mapToSignedDouble_of_lt _ _ hlt, if_neg htop,
      ofInt_natCast, ofUInt_two_pow_53_add_one, Double.ofUInt_of_le 1 (by norm_num)]
    rw [div_finite_of_ne (by norm_num), Nat.cast_one, div_one]
    exact round_two_pow_53
  · rw [binary64_mapToSignedDouble_of_lt _ _ (by decide), if_pos (by decide),
      Double.ofUInt_of_le 0 (by norm_num)]
    have hs : ((150 : Nat) : Int) - (2 : Int) ^ uint8_t.bits = -106 := by decide
    rw [hs, Double.ofInt_of_abs_le (-106) (abs_le.mpr ⟨by norm_num, by norm_num⟩)]
    simp only [Double.div]
    norm_num

/-- C4 (amended): for a `W`-bit value `v`, `mapToSignedDouble` returns the
double-precision quotient of `s` by the divisor `d`, both converted to
`double`, where `s = v - 2 ^ W` when the top bit of `v` is set and `s = v`
otherwise. For `0 < d ≤ 2 ^ 53` and `|s| ≤ 2 ^ 53` that is `s / d` rounded to
binary64; for `d = 0` it is not a finite number. -/
theorem mapToSignedDouble_eq_double_quotient (m : NumberMapper T) (v : Nat) (s : Int)
    (hv : v < 2 ^ T.bits)
    (hs : s = if 2 ^ (T.bits - 1) ≤ v then (v : Int) - (2 : Int) ^ T.bits else (v : Int)) :
    Binary64.mapToSignedDouble m v = Double.div (Double.ofInt s) (Double.ofUInt m.divisor_) ∧
    (0 < m.divisor_ → m.divisor_ ≤ 2 ^ 53 → |s| ≤ 2 ^ 53 →
      Binary64.mapToSignedDouble m v = Double.round ((s : ℚ) / (m.divisor_ : ℚ))) ∧
    (m.divisor_ = 0 → ∀ q : ℚ, Binary64.mapToSignedDouble m v ≠ .finite q) := by
  have h := binary64_mapToSignedDouble_of_lt m v hv
  rw [← hs] at h
  refine ⟨h, ?_, ?_⟩
  · intro hd0 hd hsle
    have hne : (m.divisor_ : ℚ) ≠ 0 := by exact_mod_cast (Nat.pos_iff_ne_zero.mp hd0)
    rw [h, Double.ofInt_of_abs_le s hsle, Double.ofUInt_of_le m.divisor_ hd]
    simp only [Double.div, if_neg hne]
  · intro hd0 q
    rw [h, hd0, Double.ofUInt_of_le 0 (by norm_num)]
    exact_mod_cast div_zero_not_finite (Double.ofInt s) q

/-- C4 (amended) at width 8 and divisor 100: the value 150 has its top bit
set, `s = -106`, and it is decoded as `-106 / 100` rounded to binary64, which
is `-2386907802506363 / 2 ^ 51`. -/
theorem mapToSignedDouble_eq_double_quotient_witness :
    (150 < 2 ^ uint8_t.bits ∧
      (-106 : Int) = if 2 ^ (uint8_t.bits - 1) ≤ 150 then ((150 : Nat) : Int) -
        (2 : Int) ^ uint8_t.bits else ((150 : Nat) : Int)) ∧
    Binary64.mapToSignedDouble (T := uint8_t) ⟨100⟩ 150 =
      .finite (-2386907802506363 / 2251799813685248) := by
  have hv : 150 < 2 ^ uint8_t.bits := by decide
  have hs : (-106 : Int) = if 2 ^ (uint8_t.bits - 1) ≤ 150 then ((150 : Nat) : Int) -
      (2 : Int) ^ uint8_t.bits else ((150 : Nat) : Int) := by decide
  have h := (mapToSignedDouble_eq_double_quotient (T := uint8_t) ⟨100⟩ 150 (-106) hv hs).2.1
    (by decide) (by norm_num) (abs_le.mpr ⟨by norm_num, by norm_num⟩)
  rw [h]
  exact ⟨⟨hv, hs⟩, round_neg_106_div_100⟩

/-! ## The group size -/

/-- C8 fails for the 32-bit and the 64-bit storage types: `max() + 1` is
evaluated in the unsigned type itself and wraps to 0, so `groupSizeInt` and
`groupSizeDouble` are 0 rather than `2 ^ W`; for the 8-bit and 16-bit types
the addition is performed in `int` and the constants equal `2 ^ W`. -/
theorem groupSizeInt_uint32_eq_zero :
    groupSizeInt uint32_t = 0 ∧ groupSizeInt uint32_t ≠ 2 ^ uint32_t.bits ∧
    groupSizeDouble uint32_t = 0 ∧
    groupSizeInt uint64_t = 0 ∧ groupSizeInt uint64_t ≠ 2 ^ uint64_t.bits ∧
    groupSizeInt uint8_t = 2 ^ uint8_t.bits ∧ groupSizeInt uint16_t = 2 ^ uint16_t.bits := by
  have h32 : groupSizeInt uint32_t = 0 := by decide
  refine ⟨h32, by decide, ?_, by decide, by decide, by decide, by decide⟩
  unfold groupSizeDouble
  rw [h32]
  rfl

end NumberMapper

end fbpcf.mpc_std_lib.walr.util
